import Mathlib

/-!
Verification of the MO Ethics campaign-finance PDF extraction core.

This file shallowly embeds the string-processing core of the repository
(`expense_extractor.py`, `donor_extractor.py`, `PDF_Handler.py`) in Lean 4
and proves properties of it.

Modelling conventions:
* Python strings are modelled as Lean `String` / `List Char`; all text in
  this program is ASCII, so `Char.toUpper`/`Char.toLower` coincide with
  Python's `str.upper`/`str.lower` on the inputs of interest.
* Python `re` patterns are embedded as hand-written leftmost-match scanners.
  Each scanner follows the backtracking semantics of the concrete pattern it
  embeds; a comment next to each scanner records the pattern.
* Python `float(...)` is modelled exactly over decimal literals
  (optional surrounding whitespace, optional sign, digits with an optional
  fractional part) as a rational number.  The amount strings this program
  manipulates have at most two fractional digits, where the rational and
  IEEE-double comparisons against 0.50 agree.
* Fallible Python code (functions that `return None` or are guarded by
  `try/except`) is modelled with `Option`.
-/

namespace MOEthics

/-- Python's whitespace set used by `str.strip`, `str.split()` and `\s`. -/
def pyIsSpace (c : Char) : Bool :=
  c = ' ' || c = '\t' || c = '\n' || c = '\r' || c = '\x0b' || c = '\x0c'

/-- Python `str.strip()` on a character list. -/
def pyStripL (l : List Char) : List Char :=
  ((l.dropWhile pyIsSpace).reverse.dropWhile pyIsSpace).reverse

/-- Python `str.strip()`. -/
def pyStrip (s : String) : String := ⟨pyStripL s.toList⟩

/-- Python `str.split()` (split on whitespace runs, dropping empty parts).
`acc` holds the current word reversed. -/
def pyWordsAux (acc : List Char) : List Char → List (List Char)
  | [] => if acc.isEmpty then [] else [acc.reverse]
  | c :: cs =>
    if pyIsSpace c then
      if acc.isEmpty then pyWordsAux [] cs else acc.reverse :: pyWordsAux [] cs
    else pyWordsAux (c :: acc) cs

def pyWords (l : List Char) : List (List Char) := pyWordsAux [] l

/-- `' '.join(words)`. -/
def joinSpaces : List (List Char) → List Char
  | [] => []
  | [w] => w
  | w :: w2 :: ws => w ++ ' ' :: joinSpaces (w2 :: ws)

/-- `' '.join(s.split())`: collapse whitespace runs to single spaces and trim. -/
def normSpace (l : List Char) : List Char := joinSpaces (pyWords l)

/-- Python substring test `needle in hay`. -/
def pyIn (needle : List Char) : List Char → Bool
  | [] => needle.isEmpty
  | c :: cs => needle.isPrefixOf (c :: cs) || pyIn needle cs

/-- Python `needle in hay` on `String`s. -/
def pyInS (needle hay : String) : Bool := pyIn needle.toList hay.toList

/-- Python `str.upper()` (ASCII). -/
def pyUpper (l : List Char) : List Char := l.map Char.toUpper

/-- `str.split('\n')`.  `acc` holds the current line reversed. -/
def splitNlAux (acc : List Char) : List Char → List (List Char)
  | [] => [acc.reverse]
  | c :: cs => if c = '\n' then acc.reverse :: splitNlAux [] cs
               else splitNlAux (c :: acc) cs

def splitNl (l : List Char) : List (List Char) := splitNlAux [] l

/-- Truthiness of an optional Python string: `None` and `''` are falsy. -/
def pyTruthy : Option String → Bool
  | none => false
  | some s => s ≠ ""

def digitVal (c : Char) : Nat := c.toNat - '0'.toNat

def digitsToNat (l : List Char) : Nat := l.foldl (fun n c => n * 10 + digitVal c) 0

/-! ## Number sub-patterns shared by the amount regexes

The captured groups of the amount regexes are built from three pieces:
a leading digit group, zero or more `,ddd` groups and an optional `.dd`
fraction.  The greedy matchers below return the matched characters together
with the unconsumed rest. -/

/-- Greedy `\d{1,n}`: up to `n` leading digits. -/
def digitsUpTo : Nat → List Char → List Char × List Char
  | 0, l => ([], l)
  | _ + 1, [] => ([], [])
  | n + 1, c :: cs =>
    if c.isDigit then
      let (d, r) := digitsUpTo n cs
      (c :: d, r)
    else ([], c :: cs)

/-- Greedy `(?:,\d{3})*`. -/
def commaGroupsStar : List Char → List Char × List Char
  | ',' :: a :: b :: c :: rest =>
    if a.isDigit && b.isDigit && c.isDigit then
      let (g, r) := commaGroupsStar rest
      (',' :: a :: b :: c :: g, r)
    else ([], ',' :: a :: b :: c :: rest)
  | l => ([], l)

/-- Greedy `(?:\.\d{2})?`. -/
def decimalOpt : List Char → List Char × List Char
  | '.' :: a :: b :: rest =>
    if a.isDigit && b.isDigit then (['.', a, b], rest)
    else ([], '.' :: a :: b :: rest)
  | l => ([], l)

/-- `\d{1,3}(?:,\d{3})*(?:\.\d{2})?` (greedy; the tail parts are optional, so
no backtracking into the digit group can ever be needed). -/
def matchNum13Star (l : List Char) : Option (List Char) :=
  let (d, r1) := digitsUpTo 3 l
  if d.isEmpty then none
  else
    let (g, r2) := commaGroupsStar r1
    let (f, _) := decimalOpt r2
    some (d ++ g ++ f)

/-- `\d{1,3}(?:,\d{3})+(?:\.\d{2})?`: like `matchNum13Star` but requiring at
least one comma group.  (If the greedy digit group is followed by a digit
rather than a comma, shortening it would again be followed by a digit, so
failure is final at this start position.) -/
def matchNum13Plus (l : List Char) : Option (List Char) :=
  let (d, r1) := digitsUpTo 3 l
  if d.isEmpty then none
  else
    let (g, r2) := commaGroupsStar r1
    if g.isEmpty then none
    else
      let (f, _) := decimalOpt r2
      some (d ++ g ++ f)

/-- Value in hundredths (cents) of a captured amount of the shape
`digits(.dd)?` with commas already removed; models `float(amount)` for the
strategy-1 threshold test, which is exact at two fractional digits. -/
def centsOf (l : List Char) : Nat :=
  let ip := l.takeWhile (fun c => c != '.')
  let fp := (l.dropWhile (fun c => c != '.')).drop 1
  digitsToNat ip * 100 + digitsToNat fp

/-! ## `extract_amount_from_cell` (expense_extractor.py, lines 163-215) -/

/-- Strategy 1 matcher at one position:
`(?:PAID|Paid)\s+(\d{1,3}(?:,\d{3})*(?:\.\d{2})?)` with `re.IGNORECASE`
(the alternation is case-insensitive, hence simply the word `paid`). -/
def matchS1At : List Char → Option (List Char)
  | p :: a :: i :: d :: rest =>
    if p.toLower = 'p' && a.toLower = 'a' && i.toLower = 'i' && d.toLower = 'd' then
      match rest with
      | c :: r1 =>
        if pyIsSpace c then matchNum13Star (r1.dropWhile pyIsSpace) else none
      | [] => none
    else none
  | _ => none

/-- Leftmost search for a matcher without lookbehind. -/
def searchPlain (m : List Char → Option (List Char)) : List Char → Option (List Char)
  | [] => none
  | c :: cs =>
    match m (c :: cs) with
    | some cap => some cap
    | none => searchPlain m cs

/-- Leftmost search for a matcher guarded by the lookbehind `(?<!\d)`:
positions preceded by a digit are skipped. -/
def searchNoDigitLB (m : List Char → Option (List Char)) :
    Option Char → List Char → Option (List Char)
  | _, [] => none
  | prev, c :: cs =>
    match (if (prev.map Char.isDigit).getD false then none else m (c :: cs)) with
    | some cap => some cap
    | none => searchNoDigitLB m (some c) cs

/-- Strategies 2-4 start with `\$\s*`; `skipDollarWs` consumes that prefix. -/
def skipDollarWs : List Char → Option (List Char)
  | '$' :: r => some (r.dropWhile pyIsSpace)
  | _ => none

/-- Strategy 2: `\$\s*(\d{1,3}(?:,\d{3})+(?:\.\d{2})?)`. -/
def matchS2At (l : List Char) : Option (List Char) :=
  (skipDollarWs l).bind matchNum13Plus

/-- `\d{3,}(?:\.\d{2})?` (no lookahead): the digit group takes the whole
digit run (a shorter take is followed by a digit and so can never extend). -/
def matchNum3Plus (l : List Char) : Option (List Char) :=
  let d := l.takeWhile Char.isDigit
  let r := l.dropWhile Char.isDigit
  if d.length < 3 then none
  else
    let (f, _) := decimalOpt r
    some (d ++ f)

/-- Strategy 3: `\$\s*(\d{3,}(?:\.\d{2})?)`. -/
def matchS3At (l : List Char) : Option (List Char) :=
  (skipDollarWs l).bind matchNum3Plus

/-- `\d{1,2}\.\d{2}` with the greedy 2-then-1 digit backtracking. -/
def matchNum12Dec : List Char → Option (List Char)
  | a :: b :: c :: d :: e :: _ =>
    if a.isDigit && b.isDigit && c = '.' && d.isDigit && e.isDigit then
      some [a, b, c, d, e]
    else if a.isDigit && b = '.' && c.isDigit && d.isDigit then
      some [a, b, c, d]
    else none
  | a :: b :: c :: d :: [] =>
    if a.isDigit && b = '.' && c.isDigit && d.isDigit then some [a, b, c, d]
    else none
  | _ => none

/-- Strategy 4: `\$\s*(\d{1,2}\.\d{2})`. -/
def matchS4At (l : List Char) : Option (List Char) :=
  (skipDollarWs l).bind matchNum12Dec

/-- End of the strategy-5 pattern after the comma groups:
`(?:\.\d{2})?(?!\d)`, greedy with backtracking over the optional fraction. -/
def s5End : List Char → Option (List Char)
  | '.' :: a :: b :: rest =>
    if a.isDigit && b.isDigit && !(rest.headD ' ').isDigit then some ['.', a, b]
    else some []
  | c :: _ =>
    if c.isDigit then none else some []
  | [] => some []

/-- `(?:,\d{3})+(?:\.\d{2})?(?!\d)`: greedy repetition, backtracking to end
the repetition one group earlier whenever the tail cannot match. -/
def s5Tail : List Char → Option (List Char)
  | ',' :: a :: b :: c :: rest =>
    if a.isDigit && b.isDigit && c.isDigit then
      match s5Tail rest with
      | some m => some (',' :: a :: b :: c :: m)
      | none =>
        match s5End rest with
        | some e => some (',' :: a :: b :: c :: e)
        | none => none
    else none
  | _ => none

/-- Strategy 5 matcher at one position:
`(?<!\d)(\d{1,3}(?:,\d{3})+(?:\.\d{2})?)(?!\d)` without the lookbehind,
which is handled by the searcher.  A digit run longer than 3 can never be
followed by a comma group, so only the greedy take can succeed. -/
def matchS5At (l : List Char) : Option (List Char) :=
  let (d, r) := digitsUpTo 3 l
  if d.isEmpty then none
  else (s5Tail r).map (fun t => d ++ t)

/-- Strategy 6 matcher at one position:
`(?<!\d)(\d{3,}(?:\.\d{2})?)(?!\d)` without the lookbehind.  The digit group
takes the whole run (a shorter take is followed by a digit, failing both the
fraction and the lookahead); the optional fraction is dropped again when its
own lookahead fails, after which the lookahead sees `.` and succeeds. -/
def matchS6At (l : List Char) : Option (List Char) :=
  let d := l.takeWhile Char.isDigit
  let r := l.dropWhile Char.isDigit
  if d.length < 3 then none
  else
    match r with
    | '.' :: a :: b :: rest =>
      if a.isDigit && b.isDigit && !(rest.headD ' ').isDigit then
        some (d ++ ['.', a, b])
      else some d
    | _ => some d

/-- Strategy 7 matcher at one position: `(?<!\d)(\d{1,2}\.\d{2})(?!\d)`
without the lookbehind.  The digit group must take the whole run (a shorter
take is followed by a digit, not `.`), so a run of 3 or more digits fails. -/
def matchS7At (l : List Char) : Option (List Char) :=
  let d := l.takeWhile Char.isDigit
  let r := l.dropWhile Char.isDigit
  if d.length = 0 || d.length > 2 then none
  else
    match r with
    | '.' :: a :: b :: rest =>
      if a.isDigit && b.isDigit && !(rest.headD ' ').isDigit then
        some (d ++ ['.', a, b])
      else none
    | _ => none

/-- `amount.replace(',', '')`. -/
def stripCommas (l : List Char) : List Char := l.filter (fun c => c != ',')

/-- Strategies 2-7 of `extract_amount_from_cell`, tried in order on the raw
cell text, first success returned with commas removed. -/
def amountStrategies2to7 (raw : List Char) : Option (List Char) :=
  match searchPlain matchS2At raw with
  | some cap => some (stripCommas cap)
  | none =>
  match searchPlain matchS3At raw with
  | some cap => some (stripCommas cap)
  | none =>
  match searchPlain matchS4At raw with
  | some cap => some (stripCommas cap)
  | none =>
  match searchNoDigitLB matchS5At none raw with
  | some cap => some (stripCommas cap)
  | none =>
  match searchNoDigitLB matchS6At none raw with
  | some cap => some (stripCommas cap)
  | none =>
  match searchNoDigitLB matchS7At none raw with
  | some cap => some (stripCommas cap)
  | none => none

/-- `extract_amount_from_cell` (expense_extractor.py lines 163-215).
Strategy 1 (a number following the keyword `Paid`, accepted when its value
is at least 0.50) runs on the whitespace-normalised cell; strategies 2-7
run on the raw cell text. -/
def extract_amount_from_cell (cell : String) : Option String :=
  if cell = "" then none
  else
    match searchPlain matchS1At (normSpace cell.toList) with
    | some cap =>
      if 50 ≤ centsOf (stripCommas cap) then some ⟨stripCommas cap⟩
      else (amountStrategies2to7 cell.toList).map (⟨·⟩)
    | none => (amountStrategies2to7 cell.toList).map (⟨·⟩)

/-! ## `is_valid_amount` (expense_extractor.py lines 218-227) -/

/-- Unsigned decimal literal accepted by Python `float`: digits with an
optional fractional part (at least one digit in total).  The value is
returned exactly as `(mantissa, fracDigits)`, standing for
`mantissa / 10 ^ fracDigits`.  Exponents, `inf`/`nan` and digit-group
underscores are outside the fragment this program produces and are not
modelled. -/
def parseUnsignedParts? (l : List Char) : Option (Nat × Nat) :=
  let ip := l.takeWhile Char.isDigit
  let rest := l.drop ip.length
  match rest with
  | [] => if ip.isEmpty then none else some (digitsToNat ip, 0)
  | '.' :: fp =>
    if fp.all Char.isDigit && !(ip.isEmpty && fp.isEmpty) then
      some (digitsToNat ip * 10 ^ fp.length + digitsToNat fp, fp.length)
    else none
  | _ => none

/-- `float(s)` on decimal literals, in exact parts: surrounding whitespace
and an optional sign around an unsigned decimal literal.  The result is
`(negative, mantissa, fracDigits)`. -/
def pyFloatParse? (s : String) : Option (Bool × Nat × Nat) :=
  match pyStripL s.toList with
  | '-' :: r => (parseUnsignedParts? r).map (fun p => (true, p))
  | '+' :: r => (parseUnsignedParts? r).map (fun p => (false, p))
  | r => (parseUnsignedParts? r).map (fun p => (false, p))

/-- The rational value of `float(s)` (exact for the decimal fragment; the
two-decimal amount strings of this program compare with 0.50 identically as
rationals and as IEEE doubles). -/
def pyFloat? (s : String) : Option ℚ :=
  (pyFloatParse? s).map (fun p => (if p.1 then -1 else 1) * (p.2.1 : ℚ) / (10 : ℚ) ^ p.2.2)

/-- `is_valid_amount` (expense_extractor.py lines 218-227): empty strings are
falsy; otherwise the string must parse as a float that is at least 0.50.
The comparison `float(amount) >= 0.50` is evaluated exactly on the parts:
a nonnegative `m / 10^e` is at least `1/2` iff `10^e ≤ 2*m`, and a negative
parsed value is below `1/2`; `is_valid_amount_float_iff` proves this
agreement with the rational semantics `pyFloat?`. -/
def is_valid_amount (s : String) : Bool :=
  if s = "" then false
  else
    match pyFloatParse? s with
    | some (neg, m, e) => !neg && 10 ^ e ≤ 2 * m
    | none => false

/-! ## The amount cascade as worded by the spec

The spec describes strategy (a) as "number following `Paid`/`Incurred`
keyword, accepted only if >= 0.50".  For the refinement comparison we embed
that wording literally: the keyword alternative also matches `Incurred`.
The code's strategy 1 only matches the keyword `Paid`. -/

/-- Spec-worded strategy (a) matcher: a number following either the keyword
`Paid` or the keyword `Incurred` (case-insensitive, leftmost occurrence). -/
def matchS1SpecAt (l : List Char) : Option (List Char) :=
  match matchS1At l with
  | some cap => some cap
  | none =>
    match l with
    | i :: n :: c :: u :: r :: r' :: e :: d :: rest =>
      if i.toLower = 'i' && n.toLower = 'n' && c.toLower = 'c' && u.toLower = 'u' &&
         r.toLower = 'r' && r'.toLower = 'r' && e.toLower = 'e' && d.toLower = 'd' then
        match rest with
        | c' :: r1 =>
          if pyIsSpace c' then matchNum13Star (r1.dropWhile pyIsSpace) else none
        | [] => none
      else none
    | _ => none

/-- The extraction cascade exactly as the spec words it (claim C1): identical
to `extract_amount_from_cell` except that strategy (a) also accepts a number
following the `Incurred` keyword. -/
def spec_extract_amount_from_cell (cell : String) : Option String :=
  if cell = "" then none
  else
    match searchPlain matchS1SpecAt (normSpace cell.toList) with
    | some cap =>
      if 50 ≤ centsOf (stripCommas cap) then some ⟨stripCommas cap⟩
      else (amountStrategies2to7 cell.toList).map (⟨·⟩)
    | none => (amountStrategies2to7 cell.toList).map (⟨·⟩)

/-! ## Donor amount extraction (donor_extractor.py, lines 366-371)

`parse_donor_entry` recovers the amount with the single pattern
`\$?\s*(\d+(?:,\d{3})*(?:\.\d{2})?)` on the stripped amount cell and removes
commas from the captured group; there is no keyword cascade and no minimum
value. -/

/-- `\d+(?:,\d{3})*(?:\.\d{2})?` (greedy, no lookarounds). -/
def matchDonorNumAt (l : List Char) : Option (List Char) :=
  let d := l.takeWhile Char.isDigit
  let r := l.dropWhile Char.isDigit
  if d.isEmpty then none
  else
    let (g, r2) := commaGroupsStar r
    let (f, _) := decimalOpt r2
    some (d ++ g ++ f)

/-- `\$?\s*(\d+(?:,\d{3})*(?:\.\d{2})?)` at one position: an optional
leading `$`, then whitespace, then the number. -/
def matchDonorAt (l : List Char) : Option (List Char) :=
  if l.headD ' ' = '$' then matchDonorNumAt ((l.drop 1).dropWhile pyIsSpace)
  else matchDonorNumAt (l.dropWhile pyIsSpace)

/-- The amount assignment of `parse_donor_entry` (donor_extractor.py lines
366-371): strip the cell, and if it is nonempty search the pattern and store
the captured group with commas removed. -/
def parse_donor_entry_amount (cell : String) : Option String :=
  let c := pyStrip cell
  if c = "" then none
  else (searchPlain matchDonorAt c.toList).map (fun cap => (⟨stripCommas cap⟩ : String))

/-! ## `is_expense_page` (expense_extractor.py, lines 87-115) -/

/-- `is_expense_page`: classify a page text into the expense page kinds.
Returns `(is_expense, page_types)`. -/
def is_expense_page (text : String) : Bool × List String :=
  let tu := pyUpper text.toList
  let pt0 : List String := []
  let pt1 :=
    if (pyIn "ITEMIZED EXPENDITURES".toList tu && pyIn "ALL OVER $100".toList tu) ||
        pyIn "ITEMIZED EXPENDITURES OVER $100".toList tu then
      pt0 ++ ["detailed"]
    else pt0
  let pt2 :=
    if pyIn "CONTRIBUTIONS MADE".toList tu && pyIn "CANDIDATE OR COMMITTEE".toList tu then
      if pt1.contains "detailed" then pt1 else pt1 ++ ["contributions"]
    else pt1
  let pt3 :=
    if pyIn "EXPENDITURES OF $100 OR LESS BY CATEGORY".toList tu then pt2 ++ ["category"]
    else pt2
  let pt4 :=
    if pyIn "EXPENDITURES AND CONTRIBUTIONS MADE".toList tu &&
        pyIn "CATEGORY OF EXPENDITURE".toList tu then
      if pt3.contains "category" then pt3 else pt3 ++ ["category"]
    else pt3
  if pt4 ≠ [] then (true, pt4) else (false, [])

/-! ## `deduplicate_expenses` (expense_extractor.py, lines 646-674) -/

/-- An extracted expense record.  All value fields are optional strings, as
in the Python dicts (`None` and `''` stay distinct). -/
structure ExpenseRecord where
  source_report : String
  committee_name : Option String
  report_period : Option String
  expense_type : Option String
  payee_name : Option String
  payee_address : Option String
  payee_city_state : Option String
  date : Option String
  purpose : Option String
  amount : Option String
  payment_status : Option String
deriving DecidableEq, Repr

/-- The deduplication key: `(purpose, amount, date, 'Category')` for category
records, `(payee_name, amount, date, expense_type)` otherwise. -/
def expenseKey (e : ExpenseRecord) :
    Option String × Option String × Option String × Option String :=
  if e.payment_status = some "Category" then (e.purpose, e.amount, e.date, some "Category")
  else (e.payee_name, e.amount, e.date, e.expense_type)

/-- The loop of `deduplicate_expenses`: `seen` is the set of keys already
emitted; first occurrence of each key wins. -/
def dedupExpensesAux (seen : List (Option String × Option String × Option String × Option String)) :
    List ExpenseRecord → List ExpenseRecord
  | [] => []
  | e :: es =>
    if expenseKey e ∈ seen then dedupExpensesAux seen es
    else e :: dedupExpensesAux (expenseKey e :: seen) es

/-- `deduplicate_expenses` (expense_extractor.py lines 646-674). -/
def deduplicate_expenses (l : List ExpenseRecord) : List ExpenseRecord :=
  dedupExpensesAux [] l

/-! ## Report metadata (donor_extractor.py, lines 10-49)

The metadata regexes.  `re.search` semantics are embedded per pattern:
each scanner documents the leftmost-match/backtracking argument for the
concrete pattern it stands for. -/

/-- Rest of the list after the first occurrence of `lit`, or `none`. -/
def findLit (lit : List Char) : List Char → Option (List Char)
  | [] => if lit.isEmpty then some [] else none
  | c :: cs =>
    if lit.isPrefixOf (c :: cs) then some ((c :: cs).drop lit.length)
    else findLit lit cs

/-- `\d{1,2}/` with the greedy two-then-one digit backtracking; returns the
digits and the rest after the slash. -/
def digits12Slash : List Char → Option (List Char × List Char)
  | a :: b :: c :: r =>
    if a.isDigit then
      if b.isDigit && c = '/' then some ([a, b], r)
      else if b = '/' then some ([a], c :: r)
      else none
    else none
  | [a, b] => if a.isDigit && b = '/' then some ([a], []) else none
  | _ => none

/-- `\d{4}` exactly (further digits may follow unconsumed). -/
def year4 : List Char → Option (List Char × List Char)
  | a :: b :: c :: d :: r =>
    if a.isDigit && b.isDigit && c.isDigit && d.isDigit then some ([a, b, c, d], r)
    else none
  | _ => none

/-- `\d{1,2}/\d{1,2}/\d{4}` at one position; returns (capture, rest). -/
def matchDateAtR (l : List Char) : Option (List Char × List Char) :=
  (digits12Slash l).bind fun md =>
  (digits12Slash md.2).bind fun dd =>
  (year4 dd.2).map fun yd => (md.1 ++ '/' :: dd.1 ++ '/' :: yd.1, yd.2)

/-- Leftmost `\d{1,2}/\d{1,2}/\d{4}` match; returns (capture, rest). -/
def searchDateR : List Char → Option (List Char × List Char)
  | [] => none
  | c :: cs =>
    match matchDateAtR (c :: cs) with
    | some r => some r
    | none => searchDateR cs

/-- Capture of `FULL NAME OF COMMITTEE\s*\n\s*([^\n]+)` directly after the
literal.  The whitespace run after the literal must contain a newline; the
capture is the rest of the line after the run.  When the text ends inside
the run, the pattern can still match whitespace after an inner newline of
the run (Python then captures a nonempty whitespace string; we return the
whitespace after the first newline, which agrees after `.strip()`). -/
def commCap (r : List Char) : Option (List Char) :=
  let run := r.takeWhile pyIsSpace
  let rest := r.dropWhile pyIsSpace
  if run.contains '\n' then
    if rest ≠ [] then some (rest.takeWhile (fun c => c != '\n'))
    else
      let afterFirstNl := (run.dropWhile (fun c => c != '\n')).drop 1
      if afterFirstNl ≠ [] then some afterFirstNl else none
  else none

/-- Leftmost match of `FULL NAME OF COMMITTEE\s*\n\s*([^\n]+)`; the
returned capture is already `.strip()`-ed as in the source. -/
def searchCommittee : List Char → Option String
  | [] => none
  | c :: cs =>
    match
      (if "FULL NAME OF COMMITTEE".toList.isPrefixOf (c :: cs) then
         commCap ((c :: cs).drop "FULL NAME OF COMMITTEE".toList.length)
       else none) with
    | some cap => some ⟨pyStripL cap⟩
    | none => searchCommittee cs

/-- `FROM\s+(\d{1,2}/\d{1,2}/\d{4})` at one position; returns (capture, rest). -/
def matchFromDateAt : List Char → Option (List Char × List Char)
  | 'F' :: 'R' :: 'O' :: 'M' :: c :: r =>
    if pyIsSpace c then matchDateAtR (r.dropWhile pyIsSpace) else none
  | _ => none

def searchFromDate : List Char → Option (List Char × List Char)
  | [] => none
  | c :: cs =>
    match matchFromDateAt (c :: cs) with
    | some r => some r
    | none => searchFromDate cs

/-- `THROUGH\s+(\d{1,2}/\d{1,2}/\d{4})` at one position. -/
def matchThroughDateAt : List Char → Option (List Char × List Char)
  | 'T' :: 'H' :: 'R' :: 'O' :: 'U' :: 'G' :: 'H' :: c :: r =>
    if pyIsSpace c then matchDateAtR (r.dropWhile pyIsSpace) else none
  | _ => none

def searchThroughDate : List Char → Option (List Char × List Char)
  | [] => none
  | c :: cs =>
    match matchThroughDateAt (c :: cs) with
    | some r => some r
    | none => searchThroughDate cs

/-- `FROM\s+(\d{1,2}/\d{1,2}/\d{4}).*?THROUGH\s+(\d{1,2}/\d{1,2}/\d{4})` with
`re.DOTALL`.  The lazy `.*?` makes the match the first `THROUGH`-date after
the first `FROM`-date; if no `THROUGH`-date follows the first `FROM`-date
then none follows a later one either, so the whole search fails. -/
def searchPeriod (t : List Char) : Option (String × String) :=
  (searchFromDate t).bind fun s =>
  (searchThroughDate s.2).map fun e => ((⟨s.1⟩ : String), (⟨e.1⟩ : String))

/-- `DATE OF REPORT.*?(\d{1,2}/\d{1,2}/\d{4})` with `re.DOTALL`: the first
date anywhere after the first occurrence of the literal (a later literal
occurrence cannot succeed where the first fails). -/
def searchDateOfReport (t : List Char) : Option String :=
  (findLit "DATE OF REPORT".toList t).bind fun r =>
    (searchDateR r).map fun d => (⟨d.1⟩ : String)

/-- The amendment-flag loop: some line contains `AMENDING PREVIOUS REPORT`
and the line directly before or after it strips to exactly `4`. -/
def amendFlagAux : Option (List Char) → List (List Char) → Bool
  | _, [] => false
  | prev, l :: ls =>
    (pyIn "AMENDING PREVIOUS REPORT".toList l &&
      ((match prev with
        | some p => pyStripL p = ['4']
        | none => false) ||
       (match ls with
        | next :: _ => pyStripL next = ['4']
        | [] => false))) ||
    amendFlagAux (some l) ls

/-- Report metadata, as extracted from a PDF's first page. -/
structure Metadata where
  filename : String
  committee_name : Option String
  period_start : Option String
  period_end : Option String
  date_filed : Option String
  is_amendment : Bool
deriving DecidableEq, Repr

/-- `extract_report_metadata` (donor_extractor.py lines 10-49).  The PDF is
modelled by its first-page text; `none` stands for a document that cannot
be opened or whose first page yields no text, in which case the Python
function catches the exception and returns `None`.  The function is total:
no exception escapes this boundary. -/
def extract_report_metadata (filename : String) : Option String → Option Metadata
  | none => none
  | some text =>
    let t := text.toList
    let period := searchPeriod t
    some
      { filename := filename
        committee_name := searchCommittee t
        period_start := period.map Prod.fst
        period_end := period.map Prod.snd
        date_filed := searchDateOfReport t
        is_amendment := amendFlagAux none (splitNl t) }

/-! ## `filter_latest_reports` (donor_extractor.py lines 52-86 and the
line-identical copy in expense_extractor.py lines 50-84)

The function is parametrised by the metadata oracle `meta`, standing for
`extract_report_metadata` applied to the (unmodelled) PDF file contents;
both copies differ only in which `extract_report_metadata` they call. -/

/-- `datetime.strptime(s, '%m/%d/%Y')`: one-or-two digit month and day,
exactly four digit year, with calendar validation. -/
def parseMDYStrict (s : String) : Option (Nat × Nat × Nat) :=
  match s.toList.splitOn '/' with
  | [ms, ds, ys] =>
    if ms.all Char.isDigit && ds.all Char.isDigit && ys.all Char.isDigit &&
        1 ≤ ms.length && ms.length ≤ 2 && 1 ≤ ds.length && ds.length ≤ 2 &&
        ys.length = 4 then
      let m := digitsToNat ms
      let d := digitsToNat ds
      let y := digitsToNat ys
      let leap := y % 4 = 0 && (y % 100 ≠ 0 || y % 400 = 0)
      let dim : Nat :=
        if m = 2 then (if leap then 29 else 28)
        else if m = 4 || m = 6 || m = 9 || m = 11 then 30 else 31
      if 1 ≤ m && m ≤ 12 && 1 ≤ d && d ≤ dim && 1 ≤ y then some (m, d, y)
      else none
    else none
  | _ => none

/-- Order-preserving encoding of a calendar date (`y`,`m`,`d` lexicographic). -/
def dateOrd (m d y : Nat) : Nat := y * 416 + m * 32 + d

/-- Defaulted projection of the sort key: the parsed filing date, with a
missing filing date standing for `datetime.min` (= 1/1/0001) and the raise
path collapsed to `datetime.min` as well.  The faithful fallible key is
`dateValE` below: the two agree whenever `strptime` does not raise (theorem
`dateValE_some`), and this projection is relied on only under that guard, or
in statements whose truth does not depend on the sort key. -/
def dateVal : Option String → Nat
  | none => dateOrd 1 1 1
  | some s =>
    match parseMDYStrict s with
    | some (m, d, y) => dateOrd m d y
    | none => dateOrd 1 1 1

/-- The grouping key `(committee_name, period_end)`. -/
def metaKey (m : Metadata) : Option String × Option String :=
  (m.committee_name, m.period_end)

/-- A PDF survives the validity guard when its metadata extracts and both
`committee_name` and `period_end` are truthy (non-`None`, nonempty). -/
def validPair {α : Type} (meta : α → Option Metadata) (f : α) : Option (α × Metadata) :=
  match meta f with
  | none => none
  | some m =>
    if pyTruthy m.committee_name && pyTruthy m.period_end then some (f, m) else none

/-- The files reported as corrupted/skipped: exactly those whose metadata
extraction returns `None`. -/
def corruptedFiles {α : Type} (meta : α → Option Metadata) (files : List α) : List α :=
  files.filter (fun f => (meta f).isNone)

/-- The candidates that enter `reports_by_period`, in file order. -/
def validReports {α : Type} (meta : α → Option Metadata) (files : List α) :
    List (α × Metadata) :=
  files.filterMap (validPair meta)

/-- The distinct grouping keys in first-insertion order (Python dicts
iterate in insertion order). -/
def keysInOrder {α : Type} (l : List (α × Metadata)) :
    List (Option String × Option String) :=
  l.foldl (fun acc p => if metaKey p.2 ∈ acc then acc else acc ++ [metaKey p.2]) []

/-- The group of candidates for one key, in insertion order. -/
def groupFor {α : Type} (l : List (α × Metadata)) (k : Option String × Option String) :
    List (α × Metadata) :=
  l.filter (fun p => metaKey p.2 = k)

/-- First element attaining the maximal filing date: the head of a stable
descending sort by `dateVal`, which is what `reports.sort(key=...,
reverse=True)` followed by `reports[0]` produces. -/
def pickFirstMax {α : Type} : α × Metadata → List (α × Metadata) → α × Metadata
  | best, [] => best
  | best, x :: xs =>
    if dateVal best.2.date_filed < dateVal x.2.date_filed then pickFirstMax x xs
    else pickFirstMax best xs

/-- The file kept for one key: the head of the stable descending sort of
its group (`reports[0][0]`). -/
def latestPick {α : Type} (valids : List (α × Metadata))
    (k : Option String × Option String) : Option α :=
  match groupFor valids k with
  | [] => none
  | x :: xs => some (pickFirstMax x xs).1

/-- `filter_latest_reports` (donor_extractor.py lines 52-86): one surviving
file per `(committee_name, period_end)` key, the first-listed candidate with
the latest filing date.  This is the total projection with the raise path
collapsed; the exact model carrying the `ValueError` path is
`filter_latest_reportsE` below, and the two agree whenever no filing date
raises (theorem `filter_latest_reportsE_eq`). -/
def filter_latest_reports {α : Type} (meta : α → Option Metadata) (files : List α) :
    List α :=
  (keysInOrder (validReports meta files)).filterMap (latestPick (validReports meta files))

/-- Option-propagating map used by the exception-aware model: the loop body
applied to each element in order, aborting (`none`) at the first raise. -/
def mapME {α β : Type} (f : α → Option β) : List α → Option (List β)
  | [] => some []
  | x :: xs =>
    match f x with
    | none => none
    | some y =>
      match mapME f xs with
      | none => none
      | some ys => some (y :: ys)

/-- The exact sort key
`datetime.strptime(x[1]['date_filed'], '%m/%d/%Y') if x[1]['date_filed'] else datetime.min`:
a falsy filing date stands for `datetime.min`; a truthy one goes through the
unguarded `strptime`, whose `ValueError` on a regex-capturable but
calendar-invalid date is modelled by `none`. -/
def dateValE (d : Option String) : Option Nat :=
  if pyTruthy d then
    (parseMDYStrict (d.getD "")).map (fun t => dateOrd t.1 t.2.1 t.2.2)
  else some (dateOrd 1 1 1)

/-- One iteration of the `for key, reports in reports_by_period.items()`
loop, with the exception path: `reports.sort(key=..., reverse=True)` first
computes the key of every group member (raising, i.e. `none`, if any truthy
filing date fails to parse), then `reports[0][0]` is the first-listed member
with the maximal key, which on the success path is `pickFirstMax`. -/
def latestPickE {α : Type} (valids : List (α × Metadata))
    (k : Option String × Option String) : Option α :=
  match mapME (fun p => dateValE p.2.date_filed) (groupFor valids k) with
  | none => none
  | some _ =>
    match groupFor valids k with
    | [] => none
    | x :: xs => some (pickFirstMax x xs).1

/-- `filter_latest_reports` with its exception path made explicit: `none`
when the unguarded `strptime` raises on some surviving candidate's filing
date (the `ValueError` escapes the function and nothing is returned);
otherwise `some` of the kept files, one per key in insertion order. -/
def filter_latest_reportsE {α : Type} (meta : α → Option Metadata) (files : List α) :
    Option (List α) :=
  mapME (latestPickE (validReports meta files)) (keysInOrder (validReports meta files))

/-! ## `clean_donor_record` (donor_extractor.py, lines 97-200) -/

/-- A donor record, as built by `parse_donor_entry`. -/
structure DonorRecord where
  source_report : String
  committee_name : Option String
  report_period : Option String
  donor_name : Option String
  donor_address : Option String
  donor_city_state : Option String
  date_received : Option String
  amount : Option String
  contribution_type : Option String
deriving DecidableEq, Repr

/-- Python `s.replace(pat, '')`: delete all non-overlapping occurrences,
left to right.  Fuelled by the string length (each step consumes at least
one character of the input, since `pat` is nonempty at every call site). -/
def replaceAllDelAux (pat : List Char) : Nat → List Char → List Char
  | 0, l => l
  | _ + 1, [] => []
  | fuel + 1, c :: cs =>
    if pat.isPrefixOf (c :: cs) then replaceAllDelAux pat fuel ((c :: cs).drop pat.length)
    else c :: replaceAllDelAux pat fuel cs

def pyReplaceDel (pat s : String) : String :=
  ⟨replaceAllDelAux pat.toList s.toList.length s.toList⟩

/-- Python `s.startswith((p1, p2, ...))`. -/
def startsAny (ps : List String) (s : String) : Bool :=
  ps.any (fun p => p.toList.isPrefixOf s.toList)

/-- Case-insensitive literal prefix; returns the rest on success. -/
def ciPrefix : List Char → List Char → Option (List Char)
  | [], l => some l
  | _ :: _, [] => none
  | p :: ps, c :: cs => if c.toLower = p.toLower then ciPrefix ps cs else none

/-- One match of `CITY\s*/?\s*STATE:\s*` (`re.IGNORECASE`) at a position;
returns the rest after the match.  The quantifiers are deterministic here:
each `\s*` is followed by a non-whitespace requirement and the optional `/`
is taken exactly when present. -/
def matchCityStateLabelAt (l : List Char) : Option (List Char) :=
  (ciPrefix "CITY".toList l).bind fun r1 =>
    let r2 := r1.dropWhile pyIsSpace
    let r3 := match r2 with
      | '/' :: t => t
      | _ => r2
    let r4 := r3.dropWhile pyIsSpace
    (ciPrefix "STATE:".toList r4).map (fun r5 => r5.dropWhile pyIsSpace)

/-- `re.sub(r'CITY\s*/?\s*STATE:\s*', '', line, flags=re.IGNORECASE)`:
remove every non-overlapping match, continuing after each removal. -/
def subCityStateAux : Nat → List Char → List Char
  | 0, l => l
  | _ + 1, [] => []
  | fuel + 1, c :: cs =>
    match matchCityStateLabelAt (c :: cs) with
    | some rest => subCityStateAux fuel rest
    | none => c :: subCityStateAux fuel cs

def subCityState (s : String) : String := ⟨subCityStateAux s.toList.length s.toList⟩

/-- `re.search(r'\s+\d{5}(-\d{4})?$', s)`: the string ends in whitespace
followed by a 5-digit ZIP with optional `-dddd` extension (`$` also matches
just before one trailing newline). -/
def zipEndAt (l : List Char) : Bool :=
  match l with
  | c :: cs =>
    pyIsSpace c &&
    (match cs.dropWhile pyIsSpace with
     | a :: b :: c' :: d :: e :: rest =>
       a.isDigit && b.isDigit && c'.isDigit && d.isDigit && e.isDigit &&
       (rest = [] || rest = ['\n'] ||
        (match rest with
         | '-' :: f :: g :: h :: i :: rest2 =>
           f.isDigit && g.isDigit && h.isDigit && i.isDigit &&
           (rest2 = [] || rest2 = ['\n'])
         | _ => false))
     | _ => false)
  | [] => false

def zipEndGo : List Char → Bool
  | [] => false
  | c :: cs => zipEndAt (c :: cs) || zipEndGo cs

def zipEnd (s : String) : Bool := zipEndGo s.toList

/-- The mutable state of the `clean_donor_record` line loop. -/
structure CleanState where
  name : Option String
  address : Option String
  city_state : Option String
  employer : Option String
deriving DecidableEq, Repr

/-- One transcription of the `while i < len(lines)` loop of
`clean_donor_record`.  `fuel` bounds the iteration count (the index grows by
at least one per iteration, so `lines.length + 1` is always enough). -/
def cleanLoopAux (lines : List String) : Nat → Nat → CleanState → CleanState
  | 0, _, st => st
  | fuel + 1, i, st =>
    match lines[i]? with
    | none => st
    | some line =>
      -- Pattern 1: "NAME:" alone (or with only whitespace after the label)
      if line = "NAME:" ||
          ("NAME:".toList.isPrefixOf line.toList && pyStrip (pyReplaceDel "NAME:" line) = "") then
        match lines[i + 1]? with
        | none => cleanLoopAux lines fuel (i + 1) st
        | some next =>
          if "ADDRESS:".toList.isPrefixOf next.toList then
            let nameText := pyStrip (pyReplaceDel "ADDRESS:" next)
            if nameText ≠ "" && !startsAny ["CITY", "EMPLOYER:", "COMMITTEE:"] nameText then
              let st1 := { st with name := some nameText }
              let st2 :=
                match lines[i + 2]? with
                | some addr =>
                  if !startsAny ["CITY", "EMPLOYER:", "COMMITTEE:", "ADDRESS:", "NAME:"] addr then
                    { st1 with address := some addr }
                  else st1
                | none => st1
              -- the body then does `i += 1`, and the loop footer another one
              cleanLoopAux lines fuel (i + 2) st2
            else cleanLoopAux lines fuel (i + 1) st
          else if !startsAny ["ADDRESS:", "CITY", "EMPLOYER:", "COMMITTEE:"] next then
            cleanLoopAux lines fuel (i + 1) { st with name := some next }
          else cleanLoopAux lines fuel (i + 1) st
      -- Pattern 2: "ADDRESS: Name" while no name was found yet
      else if "ADDRESS:".toList.isPrefixOf line.toList && !pyTruthy st.name then
        let nameText := pyStrip (pyReplaceDel "ADDRESS:" line)
        let st' :=
          if nameText ≠ "" && !startsAny ["CITY", "EMPLOYER:", "COMMITTEE:"] nameText then
            let base := { st with name := some nameText }
            match lines[i + 1]? with
            | some next =>
              if !startsAny ["CITY", "EMPLOYER:", "COMMITTEE:", "ADDRESS:", "NAME:"] next then
                { base with address := some next }
              else base
            | none => base
          else st
        cleanLoopAux lines fuel (i + 1) st'
      -- Pattern 3: empty "ADDRESS:" label when a name is already known
      else if "ADDRESS:".toList.isPrefixOf line.toList && pyTruthy st.name &&
          !pyTruthy st.address then
        let addrText := pyStrip (pyReplaceDel "ADDRESS:" line)
        let st' :=
          if addrText = "" then
            match lines[i + 1]? with
            | some next =>
              if !startsAny ["CITY", "EMPLOYER:", "COMMITTEE:", "ADDRESS:", "NAME:"] next then
                { st with address := some next }
              else st
            | none => st
          else st
        cleanLoopAux lines fuel (i + 1) st'
      -- CITY / STATE line
      else if pyIn "CITY".toList line.toList && pyIn "STATE".toList line.toList then
        let clt := pyStrip (subCityState line)
        let st1 :=
          if clt ≠ "" && !startsAny ["EMPLOYER:", "COMMITTEE:"] clt then
            if !pyTruthy st.address then { st with address := some clt }
            else if !pyTruthy st.city_state then { st with city_state := some clt }
            else st
          else st
        let st2 :=
          match lines[i + 1]? with
          | some next =>
            if !startsAny ["EMPLOYER:", "COMMITTEE:", "ADDRESS:", "NAME:"] next then
              if pyTruthy st1.address && !pyTruthy st1.city_state then
                { st1 with city_state := some next }
              else if !pyTruthy st1.address then { st1 with address := some next }
              else st1
            else st1
          | none => st1
        cleanLoopAux lines fuel (i + 1) st2
      -- EMPLOYER line
      else if "EMPLOYER:".toList.isPrefixOf line.toList then
        let empText := pyStrip (pyReplaceDel "EMPLOYER:" line)
        let st' :=
          if empText ≠ "" then { st with employer := some empText }
          else
            match lines[i + 1]? with
            | some next =>
              if !startsAny ["COMMITTEE:", "ADDRESS:", "CITY", "NAME:"] next then
                { st with employer := some next }
              else st
            | none => st
        cleanLoopAux lines fuel (i + 1) st'
      else cleanLoopAux lines fuel (i + 1) st

/-- The stripped nonempty lines of the composite cell. -/
def compositeLines (fullText : String) : List String :=
  ((splitNl fullText.toList).map (fun l => (⟨pyStripL l⟩ : String))).filter (fun s => s ≠ "")

/-- The loop result for a composite cell, starting from the all-`None` state. -/
def cleanLoop (fullText : String) : CleanState :=
  let lines := compositeLines fullText
  cleanLoopAux lines (lines.length + 1) 0 ⟨none, none, none, none⟩

/-- Label tokens that disqualify a recovered name. -/
def nameLabelTokens : List String :=
  ["ADDRESS:", "CITY", "STATE", "EMPLOYER:", "COMMITTEE:", "NAME:"]

/-- The composite-cell branch of `clean_donor_record`: when the name field
is truthy and contains a newline, run the line loop, reject a record whose
recovered name is missing or still a label token, and otherwise store the
recovered fields (with the employer-to-city/state ZIP transposition). -/
def cleanStep (donor : DonorRecord) : Option DonorRecord :=
  if pyTruthy donor.donor_name && pyIn ['\n'] (donor.donor_name.getD "").toList then
    match (cleanLoop (donor.donor_name.getD "")).name with
    | none => none
    | some n =>
      if n = "" ∨ n ∈ nameLabelTokens then none
      else
        some { donor with
               donor_name := some n
               donor_address := (cleanLoop (donor.donor_name.getD "")).address
               donor_city_state :=
                 if !pyTruthy (cleanLoop (donor.donor_name.getD "")).city_state &&
                     pyTruthy (cleanLoop (donor.donor_name.getD "")).employer &&
                     zipEnd ((cleanLoop (donor.donor_name.getD "")).employer.getD "") then
                   (cleanLoop (donor.donor_name.getD "")).employer
                 else (cleanLoop (donor.donor_name.getD "")).city_state }
  else some donor

/-- `clean_donor_record` (donor_extractor.py lines 97-200). -/
def clean_donor_record (donor : DonorRecord) : Option DonorRecord :=
  match cleanStep donor with
  | none => none
  | some d =>
    if pyTruthy d.donor_name &&
        pyIn "ADDRESS:".toList (d.donor_name.getD "").toList &&
        pyIn "CITY".toList (d.donor_name.getD "").toList then
      none
    else some d

/-! ## `extract_mo_ethics_report_data` (PDF_Handler.py, lines 9-208)

The report-type decoder, embedded over the raw first-page text. -/

/-- The lookahead `(?=\s*\n\s*\d+\.|$)` at a suffix: either a whitespace run
containing a newline followed by a digit run and a literal dot, or the end
of the string (`$` also matches just before one trailing newline). -/
def committeeLookahead (r : List Char) : Bool :=
  (let w := r.takeWhile pyIsSpace
   let rest := r.dropWhile pyIsSpace
   w.contains '\n' &&
     (let d := rest.takeWhile Char.isDigit
      !d.isEmpty && (rest.drop d.length).headD ' ' = '.')) ||
  r = [] || r = ['\n']

/-- The lazy capture `([^\n]+?)` with the lookahead above: the shortest
nonempty prefix of the current line whose end position satisfies the
lookahead. -/
def committeeLazyCap : List Char → Option (List Char)
  | [] => none
  | c :: rest =>
    if c = '\n' then none
    else if committeeLookahead rest then some [c]
    else (committeeLazyCap rest).map (c :: ·)

/-- Leftmost match of
`FULL NAME OF COMMITTEE\s*\n\s*([^\n]+?)(?=\s*\n\s*\d+\.|$)`; the capture is
returned `.strip()`-ed.  When the text ends in whitespace right after the
label the pattern can still match pure whitespace after an inner newline,
which strips to the empty string. -/
def searchCommitteeLazy : List Char → Option String
  | [] => none
  | c :: cs =>
    match
      (if "FULL NAME OF COMMITTEE".toList.isPrefixOf (c :: cs) then
        let r := (c :: cs).drop "FULL NAME OF COMMITTEE".toList.length
        let run := r.takeWhile pyIsSpace
        let rest := r.dropWhile pyIsSpace
        if run.contains '\n' then
          if rest ≠ [] then (committeeLazyCap rest).map (fun cap => (⟨pyStripL cap⟩ : String))
          else
            let afterFirstNl := (run.dropWhile (fun x => x != '\n')).drop 1
            if afterFirstNl ≠ [] then some "" else none
        else none
      else none) with
    | some cap => some cap
    | none => searchCommitteeLazy cs

/-- The `TYPE OF REPORT ... TREASURER/SIGNATURE` section isolation loop. -/
def sectionAux : Bool → List (List Char) → List (List Char)
  | _, [] => []
  | inSec, l :: ls =>
    if pyIn "TYPE OF REPORT".toList l || (pyIn "15.".toList l && pyIn "TYPE".toList l) then
      sectionAux true ls
    else if inSec then
      if (pyIn "TREASURER".toList l && pyIn "SIGNATURE".toList l) ||
          pyIn "COMMITTEE TREASURER".toList l then []
      else l :: sectionAux true ls
    else sectionAux false ls

/-- Case-insensitive `w1\s+w2\s+...` matcher tail: each further word is
preceded by at least one whitespace character. -/
def matchWordsRest : List (List Char) → List Char → Bool
  | [], _ => true
  | w :: rest, l =>
    match l with
    | c :: r2 =>
      pyIsSpace c &&
      (match ciPrefix w (r2.dropWhile pyIsSpace) with
       | some r3 => matchWordsRest rest r3
       | none => false)
    | [] => false

def matchWordsAt (ws : List (List Char)) (l : List Char) : Bool :=
  match ws with
  | [] => true
  | w :: rest =>
    match ciPrefix w l with
    | some r => matchWordsRest rest r
    | none => false

/-- Leftmost position of a `w1\s+w2\s+...` pattern (`match.start()`). -/
def searchWordsPos (ws : List (List Char)) : Nat → List Char → Option Nat
  | _, [] => none
  | i, c :: cs =>
    if matchWordsAt ws (c :: cs) then some i else searchWordsPos ws (i + 1) cs

/-- The nine report-type phrases, in the insertion order of the Python dict,
with their regex word lists. -/
def reportPatterns : List (String × List String) :=
  [("COMMITTEE QUARTERLY REPORT", ["COMMITTEE", "QUARTERLY", "REPORT"]),
   ("AMENDING PREVIOUS REPORT", ["AMENDING", "PREVIOUS", "REPORT"]),
   ("15 DAYS AFTER CAUCUS NOMINATION", ["15", "DAYS", "AFTER", "CAUCUS"]),
   ("8 DAYS BEFORE", ["8", "DAYS", "BEFORE"]),
   ("30 DAYS AFTER ELECTION", ["30", "DAYS", "AFTER", "ELECTION"]),
   ("TERMINATION", ["TERMINATION"]),
   ("SEMIANNUAL DEBT REPORT", ["SEMIANNUAL", "DEBT", "REPORT"]),
   ("ANNUAL SUPPLEMENTAL", ["ANNUAL", "SUPPLEMENTAL"]),
   ("15 DAYS AFTER PETITION DEADLINE", ["15", "DAYS", "AFTER", "PETITION"])]

/-- The quarter deadline label from the period-end month. -/
def quarterLabel (m : Nat) : String :=
  if m ≤ 1 then "Jan 15" else if m ≤ 4 then "Apr 15"
  else if m ≤ 7 then "Jul 15" else "Oct 15"

/-- The amendment-date reconstruction from the 500 characters after an
`AMENDING` match: find a `DEMOCRAT` line, blank out underscores and commas,
collapse whitespace, and regroup the tokens into month letters, a day and
year digits. -/
def amendingLabel : List (List Char) → Option String
  | [] => none
  | line :: rest =>
    let noDem := replaceAllDelAux "DEMOCRAT".toList line.length line
    let noBoth := replaceAllDelAux "REPUBLICAN".toList noDem.length noDem
    if pyIn "DEMOCRAT".toList line &&
        (line.contains '_' || noBoth.any Char.isAlpha) then
      match findLit "DEMOCRAT".toList line with
      | none => amendingLabel rest
      | some dp =>
        let cleaned := dp.map (fun c => if c = '_' || c = ',' then ' ' else c)
        let tokens := pyWords cleaned
        let acc := tokens.foldl
          (fun (acc : List (List Char) × Option (List Char) × List (List Char)) tok =>
            let (mp, day, yp) := acc
            if !tok.isEmpty && tok.all Char.isAlpha then (mp ++ [tok], day, yp)
            else if !tok.isEmpty && tok.all Char.isDigit then
              if day = none && tok.length ≤ 2 then (mp, some tok, yp)
              else (mp, day, yp ++ [tok])
            else (mp, day, yp))
          ([], none, [])
        let (monthParts, day?, yearParts) := acc
        match day? with
        | some day =>
          if monthParts ≠ [] then
            let month := monthParts.flatten
            let year := yearParts.flatten
            some ("Amending: " ++ ((⟨month⟩ : String) ++ " " ++ (⟨day⟩ : String) ++
              (if year ≠ [] then " " ++ (⟨year⟩ : String) else "")))
          else amendingLabel rest
        | none => amendingLabel rest
    else amendingLabel rest

/-- The checkbox test at one match position: the line of the match is the
newline count before `idx`; the line directly before or after it (default
`''`) must strip to a standalone `4` (`re.match(r'^\s*4\s*$', line)` holds
exactly when the line strips to `4`). -/
def hasCheckAt (sect : List Char) (sectLines : List (List Char)) (idx : Nat) : Bool :=
  let pos := (sect.take idx).count '\n'
  let prev := if pos > 0 then (sectLines[pos - 1]?).getD [] else []
  let next := if pos + 1 < sectLines.length then (sectLines[pos + 1]?).getD [] else []
  pyStripL prev = ['4'] || pyStripL next = ['4']

/-- The quarterly sub-step: for a selected report name containing
`QUARTERLY` and a truthy period end that `strptime` accepts, append the
quarter deadline label (`try/except: pass` on a parse failure). -/
def stepQuarter (period_end : Option String) (rname : String) (acc1 : List String) :
    List String :=
  if pyInS "QUARTERLY" rname && pyTruthy period_end then
    match parseMDYStrict (period_end.getD "") with
    | some (m, _, _) => acc1 ++ ["Quarter: " ++ quarterLabel m]
    | none => acc1
  else acc1

/-- The amending sub-step: for a selected report name containing `AMENDING`,
append the reconstructed amendment date from the 500 characters after the
match, when one is found. -/
def stepAmend (sect : List Char) (idx : Nat) (rname : String) (acc2 : List String) :
    List String :=
  if pyInS "AMENDING" rname then
    match amendingLabel (splitNl ((sect.drop idx).take 500)) with
    | some lbl => acc2 ++ [lbl]
    | none => acc2
  else acc2

/-- One step of the report-type loop, for one `(report_name, pattern)` pair. -/
def stepReport (sect : List Char) (sectLines : List (List Char))
    (period_end : Option String) (acc : List String) (np : String × List String) :
    List String :=
  match searchWordsPos (np.2.map String.toList) 0 sect with
  | none => acc
  | some idx =>
    if hasCheckAt sect sectLines idx && !acc.contains np.1 then
      stepAmend sect idx np.1 (stepQuarter period_end np.1 (acc ++ [np.1]))
    else acc

/-- The isolated `TYPE OF REPORT` section text of a page. -/
def sectionTextOf (text : String) : List Char :=
  List.intercalate ['\n'] (sectionAux false (splitNl text.toList))

/-- The full report-type list for a page text and extracted period end. -/
def reportTypesOf (text : String) (period_end : Option String) : List String :=
  (reportPatterns).foldl
    (stepReport (sectionTextOf text) (splitNl (sectionTextOf text)) period_end) []

/-- The result record of `extract_mo_ethics_report_data`. -/
structure ExtractedData where
  date_of_report : Option String
  committee_name : Option String
  period_start : Option String
  period_end : Option String
  report_type : String
deriving DecidableEq, Repr

/-- `extract_mo_ethics_report_data` (PDF_Handler.py lines 9-208), over the
raw first-page text. -/
def extract_mo_ethics_report_data (text : String) : ExtractedData :=
  let t := text.toList
  let period := searchPeriod t
  let pe := period.map Prod.snd
  let rts := reportTypesOf text pe
  { date_of_report := searchDateOfReport t
    committee_name := searchCommitteeLazy t
    period_start := period.map Prod.fst
    period_end := pe
    report_type := if rts ≠ [] then String.intercalate " | " rts else "Unknown" }

/-- "contains no digit character" (used to state that a cell with no digits
yields no amount). -/
def NoDigit (l : List Char) : Prop := ∀ c ∈ l, c.isDigit = false

/-! ## Concrete instances used by the testable-property theorems -/

/-- Example metadata: a report for period end 3/31/2024 filed 1/1/2024. -/
def exMetaEarly : Metadata :=
  { filename := "a.pdf", committee_name := some "Friends of X", period_start := some "1/1/2024",
    period_end := some "3/31/2024", date_filed := some "1/1/2024", is_amendment := false }

/-- Example metadata: the superseding version of the same report, filed 3/1/2024. -/
def exMetaLate : Metadata :=
  { filename := "b.pdf", committee_name := some "Friends of X", period_start := some "1/1/2024",
    period_end := some "3/31/2024", date_filed := some "3/1/2024", is_amendment := false }

/-- Metadata oracle for the two example files. -/
def exOracleC2 : String → Option Metadata
  | "a.pdf" => some exMetaEarly
  | "b.pdf" => some exMetaLate
  | _ => none

/-- Example first-page text carrying a regex-capturable but calendar-invalid
filing date (April has 30 days): `strptime` raises on it. -/
def exBadDateText : String :=
  "FULL NAME OF COMMITTEE\nGOOD GOVERNMENT PAC\nFROM 1/1/2024 THROUGH 3/31/2024\nDATE OF REPORT\n4/31/2024"

/-- The metadata `extract_report_metadata` yields on `exBadDateText`. -/
def exMetaBad : Metadata :=
  { filename := "bad.pdf", committee_name := some "GOOD GOVERNMENT PAC",
    period_start := some "1/1/2024", period_end := some "3/31/2024",
    date_filed := some "4/31/2024", is_amendment := false }

/-- Metadata oracle reading the bad-date page. -/
def exOracleC2bad : String → Option Metadata
  | "bad.pdf" => extract_report_metadata "bad.pdf" (some exBadDateText)
  | _ => none

/-- Example metadata that extracts fine but has no period end. -/
def exMetaNoPeriod : Metadata :=
  { filename := "x.pdf", committee_name := some "Friends of X", period_start := none,
    period_end := none, date_filed := none, is_amendment := false }

/-- Metadata oracle returning readable metadata lacking `period_end`. -/
def exOracleC9 : String → Option Metadata := fun _ => some exMetaNoPeriod

/-- Example donor record whose name field holds a composite cell. -/
def exCompositeDonor : DonorRecord :=
  { source_report := "r.pdf", committee_name := some "Friends of X",
    report_period := some "1/1/2024 to 3/31/2024",
    donor_name := some "NAME:\nJohn Doe\nADDRESS:\n123 Main St\nCITY/STATE:\nSt. Louis, MO 63101",
    donor_address := none, donor_city_state := none, date_received := some "1/15/2024",
    amount := some "500.00", contribution_type := some "Monetary" }

/-- Example page-1 text: a quarterly report with the checkbox glyph on the
line before the type phrase, and period end 6/30/2024. -/
def exQuarterlyPage : String :=
  "FROM 4/1/2024 THROUGH 6/30/2024\nTYPE OF REPORT\n4\nCOMMITTEE QUARTERLY REPORT\nCOMMITTEE TREASURER"

/-! # Theorems -/

theorem NoDigit.tail {c : Char} {cs : List Char} (h : NoDigit (c :: cs)) : NoDigit cs :=
  fun x hx => h x (List.mem_cons_of_mem c hx)

theorem NoDigit.dropWhile {l : List Char} (p : Char → Bool) (h : NoDigit l) :
    NoDigit (l.dropWhile p) := by
  induction l with
  | nil => exact h
  | cons c cs ih =>
    by_cases hp : p c
    · rw [List.dropWhile_cons_of_pos hp]
      exact ih h.tail
    · rwa [List.dropWhile_cons_of_neg hp]

theorem digitsUpTo_of_noDigit (n : Nat) {l : List Char} (h : NoDigit l) :
    digitsUpTo n l = ([], l) := by
  cases n with
  | zero => rfl
  | succ n =>
    cases l with
    | nil => rfl
    | cons c cs => simp [digitsUpTo, h c (List.mem_cons_self c cs)]

theorem takeWhile_digit_of_noDigit {l : List Char} (h : NoDigit l) :
    l.takeWhile Char.isDigit = [] := by
  cases l with
  | nil => rfl
  | cons c cs => simp [List.takeWhile, h c (List.mem_cons_self c cs)]

theorem matchNum13Star_of_noDigit {l : List Char} (h : NoDigit l) :
    matchNum13Star l = none := by
  simp [matchNum13Star, digitsUpTo_of_noDigit 3 h]

theorem matchNum13Plus_of_noDigit {l : List Char} (h : NoDigit l) :
    matchNum13Plus l = none := by
  simp [matchNum13Plus, digitsUpTo_of_noDigit 3 h]

theorem matchNum3Plus_of_noDigit {l : List Char} (h : NoDigit l) :
    matchNum3Plus l = none := by
  simp [matchNum3Plus, takeWhile_digit_of_noDigit h]

theorem matchNum12Dec_of_noDigit {l : List Char} (h : NoDigit l) :
    matchNum12Dec l = none := by
  rcases l with _ | ⟨a, _ | ⟨b, _ | ⟨c, _ | ⟨d, _ | ⟨e, rest⟩⟩⟩⟩⟩ <;>
    simp [matchNum12Dec] <;>
    simp [h a (by simp)]

theorem matchS1At_of_noDigit {l : List Char} (h : NoDigit l) : matchS1At l = none := by
  rcases l with _ | ⟨p, _ | ⟨a, _ | ⟨i, _ | ⟨d, rest⟩⟩⟩⟩ <;> try rfl
  simp only [matchS1At]
  split_ifs with hcond
  · cases rest with
    | nil => rfl
    | cons c r1 =>
      have hnd : NoDigit (r1.dropWhile pyIsSpace) :=
        NoDigit.dropWhile _ h.tail.tail.tail.tail.tail
      simp [matchNum13Star_of_noDigit hnd]
  · rfl

theorem skipDollarWs_of_ne {c : Char} {r : List Char} (hc : c ≠ '$') :
    skipDollarWs (c :: r) = none := by
  unfold skipDollarWs
  split
  · rename_i heq
    injection heq with h1 _
    exact absurd h1 hc
  · rfl

theorem matchS2At_of_noDigit {l : List Char} (h : NoDigit l) : matchS2At l = none := by
  rcases l with _ | ⟨c, r⟩
  · rfl
  · by_cases hc : c = '$'
    · subst hc
      show (some (r.dropWhile pyIsSpace)).bind matchNum13Plus = none
      simp [matchNum13Plus_of_noDigit (NoDigit.dropWhile _ h.tail)]
    · rw [matchS2At, skipDollarWs_of_ne hc]
      rfl

theorem matchS3At_of_noDigit {l : List Char} (h : NoDigit l) : matchS3At l = none := by
  rcases l with _ | ⟨c, r⟩
  · rfl
  · by_cases hc : c = '$'
    · subst hc
      show (some (r.dropWhile pyIsSpace)).bind matchNum3Plus = none
      simp [matchNum3Plus_of_noDigit (NoDigit.dropWhile _ h.tail)]
    · rw [matchS3At, skipDollarWs_of_ne hc]
      rfl

theorem matchS4At_of_noDigit {l : List Char} (h : NoDigit l) : matchS4At l = none := by
  rcases l with _ | ⟨c, r⟩
  · rfl
  · by_cases hc : c = '$'
    · subst hc
      show (some (r.dropWhile pyIsSpace)).bind matchNum12Dec = none
      simp [matchNum12Dec_of_noDigit (NoDigit.dropWhile _ h.tail)]
    · rw [matchS4At, skipDollarWs_of_ne hc]
      rfl

theorem matchS5At_of_noDigit {l : List Char} (h : NoDigit l) : matchS5At l = none := by
  simp [matchS5At, digitsUpTo_of_noDigit 3 h]

theorem matchS6At_of_noDigit {l : List Char} (h : NoDigit l) : matchS6At l = none := by
  simp [matchS6At, takeWhile_digit_of_noDigit h]

theorem matchS7At_of_noDigit {l : List Char} (h : NoDigit l) : matchS7At l = none := by
  simp [matchS7At, takeWhile_digit_of_noDigit h]

theorem searchPlain_of_noDigit {m : List Char → Option (List Char)}
    (hm : ∀ l', NoDigit l' → m l' = none) {l : List Char} (h : NoDigit l) :
    searchPlain m l = none := by
  induction l with
  | nil => rfl
  | cons c cs ih =>
    simp only [searchPlain, hm _ h]
    exact ih h.tail

theorem searchNoDigitLB_of_noDigit {m : List Char → Option (List Char)}
    (hm : ∀ l', NoDigit l' → m l' = none) {l : List Char} (h : NoDigit l) :
    ∀ prev, searchNoDigitLB m prev l = none := by
  induction l with
  | nil => intro prev; rfl
  | cons c cs ih =>
    intro prev
    simp only [searchNoDigitLB, hm _ h]
    have hsplit : (if (prev.map Char.isDigit).getD false = true then none
        else (none : Option (List Char))) = none := by
      split <;> rfl
    rw [hsplit]
    exact ih h.tail (some c)

theorem NoDigit_pyWordsAux {acc l : List Char} (hacc : NoDigit acc) (hl : NoDigit l) :
    ∀ w ∈ pyWordsAux acc l, NoDigit w := by
  induction l generalizing acc with
  | nil =>
    intro w hw
    simp only [pyWordsAux] at hw
    split at hw
    · simp at hw
    · simp at hw
      subst hw
      exact fun c hc => hacc c (List.mem_reverse.mp hc)
  | cons c cs ih =>
    intro w hw
    simp only [pyWordsAux] at hw
    split at hw
    · split at hw
      · exact ih (fun x hx => absurd hx (List.not_mem_nil x)) hl.tail w hw
      · rcases List.mem_cons.mp hw with hw | hw
        · subst hw
          exact fun x hx => hacc x (List.mem_reverse.mp hx)
        · exact ih (fun x hx => absurd hx (List.not_mem_nil x)) hl.tail w hw
    · refine ih ?_ hl.tail w hw
      intro x hx
      rcases List.mem_cons.mp hx with hx | hx
      · exact hl x (by rw [hx]; exact List.mem_cons_self _ _)
      · exact hacc x hx

theorem NoDigit_joinSpaces {ws : List (List Char)} (h : ∀ w ∈ ws, NoDigit w) :
    NoDigit (joinSpaces ws) := by
  induction ws with
  | nil => exact fun c hc => absurd hc (by simp [joinSpaces])
  | cons w ws ih =>
    cases ws with
    | nil => exact fun c hc => h w (by simp) c hc
    | cons w2 ws2 =>
      intro c hc
      rw [joinSpaces] at hc
      rcases List.mem_append.mp hc with hc | hc
      · exact h w (by simp) c hc
      · rcases List.mem_cons.mp hc with hc | hc
        · subst hc; decide
        · exact ih (fun x hx => h x (List.mem_cons_of_mem w hx)) c hc

theorem NoDigit_normSpace {l : List Char} (h : NoDigit l) : NoDigit (normSpace l) :=
  NoDigit_joinSpaces (NoDigit_pyWordsAux (fun x hx => absurd hx (List.not_mem_nil x)) h)

theorem amountStrategies2to7_of_noDigit {l : List Char} (h : NoDigit l) :
    amountStrategies2to7 l = none := by
  unfold amountStrategies2to7
  rw [searchPlain_of_noDigit (fun _ => matchS2At_of_noDigit) h,
    searchPlain_of_noDigit (fun _ => matchS3At_of_noDigit) h,
    searchPlain_of_noDigit (fun _ => matchS4At_of_noDigit) h,
    searchNoDigitLB_of_noDigit (fun _ => matchS5At_of_noDigit) h none,
    searchNoDigitLB_of_noDigit (fun _ => matchS6At_of_noDigit) h none,
    searchNoDigitLB_of_noDigit (fun _ => matchS7At_of_noDigit) h none]

/-- C1 (amended): `extract_amount_from_cell` tries the seven strategies in
order, with strategy (a) matching a number following the `Paid` keyword only
(the code does not special-case the word `Incurred`), returning the first
success with commas removed: a cell containing `$1,234.56` yields `1234.56`,
`Paid 161.80 Incurred` yields `161.80`, a cell with no digits yields null,
and whenever the `Paid`-strategy finds a number of value at least 0.50 that
number is the result. -/
theorem C1_amount_cascade :
    extract_amount_from_cell "$1,234.56" = some "1234.56" ∧
    extract_amount_from_cell "Paid 161.80 Incurred" = some "161.80" ∧
    extract_amount_from_cell "$ 4 Paid 161.80 Incurred" = some "161.80" ∧
    (∀ s : String, (∀ c ∈ s.toList, c.isDigit = false) → extract_amount_from_cell s = none) ∧
    (∀ (s : String) (v : List Char), searchPlain matchS1At (normSpace s.toList) = some v →
      50 ≤ centsOf (stripCommas v) → s ≠ "" →
      extract_amount_from_cell s = some ⟨stripCommas v⟩) := by
  refine ⟨by decide, by decide, by decide, fun s hnd => ?_, fun s v hs hc hne => ?_⟩
  · unfold extract_amount_from_cell
    by_cases he : s = ""
    · rw [if_pos he]
    · rw [if_neg he]
      rw [searchPlain_of_noDigit (fun _ => matchS1At_of_noDigit) (NoDigit_normSpace hnd),
        amountStrategies2to7_of_noDigit hnd]
      rfl
  · unfold extract_amount_from_cell
    rw [if_neg hne, hs]
    show (if 50 ≤ centsOf (stripCommas v) then some ((⟨stripCommas v⟩ : String))
      else (amountStrategies2to7 s.toList).map (fun x => (⟨x⟩ : String))) =
      some (⟨stripCommas v⟩ : String)
    rw [if_pos hc]

/-- C1 (counterexample): the claim's strategy (a) also accepts a number after
the `Incurred` keyword; on the cell `500 Incurred 0.75` that cascade, as the
spec words it, returns `0.75`, while the code returns `500` (strategy (a)
does not fire and the standalone 3-digit strategy wins). -/
theorem C1_amount_cascade_counterexample :
    extract_amount_from_cell "500 Incurred 0.75" = some "500" ∧
    spec_extract_amount_from_cell "500 Incurred 0.75" = some "0.75" ∧
    extract_amount_from_cell "500 Incurred 0.75" ≠
      spec_extract_amount_from_cell "500 Incurred 0.75" :=
  ⟨by decide, by decide, by decide⟩

theorem mem_dedupExpensesAux (r : ExpenseRecord) :
    ∀ (l : List ExpenseRecord) (seen : List _),
      r ∈ dedupExpensesAux seen l ↔
        ∃ l₁ l₂, l = l₁ ++ r :: l₂ ∧ expenseKey r ∉ seen ∧
          ∀ x ∈ l₁, expenseKey x ≠ expenseKey r := by
  intro l
  induction l with
  | nil =>
    intro seen
    simp [dedupExpensesAux]
  | cons e es ih =>
    intro seen
    unfold dedupExpensesAux
    by_cases hk : expenseKey e ∈ seen
    · rw [if_pos hk, ih]
      constructor
      · rintro ⟨l₁, l₂, hsplit, hnot, hall⟩
        refine ⟨e :: l₁, l₂, by simp [hsplit], hnot, ?_⟩
        intro x hx
        rcases List.mem_cons.mp hx with hx | hx
        · subst hx
          intro hEq
          exact hnot (hEq ▸ hk)
        · exact hall x hx
      · rintro ⟨l₁, l₂, hsplit, hnot, hall⟩
        cases l₁ with
        | nil =>
          simp at hsplit
          exfalso
          exact hnot (hsplit.1 ▸ hk)
        | cons a l₁' =>
          simp at hsplit
          obtain ⟨hae, hsplit'⟩ := hsplit
          exact ⟨l₁', l₂, hsplit', hnot, fun x hx => hall x (by simp [hx])⟩
    · rw [if_neg hk]
      constructor
      · intro hmem
        rcases List.mem_cons.mp hmem with hre | hmem'
        · exact ⟨[], es, by simp [hre], by rw [hre]; exact hk, by simp⟩
        · obtain ⟨l₁, l₂, hsplit, hnot, hall⟩ := (ih _).mp hmem'
          simp at hnot
          refine ⟨e :: l₁, l₂, by simp [hsplit], hnot.2, ?_⟩
          intro x hx
          rcases List.mem_cons.mp hx with hx | hx
          · subst hx
            exact fun hEq => hnot.1 hEq.symm
          · exact hall x hx
      · rintro ⟨l₁, l₂, hsplit, hnot, hall⟩
        cases l₁ with
        | nil =>
          simp at hsplit
          exact List.mem_cons.mpr (Or.inl hsplit.1.symm)
        | cons a l₁' =>
          simp at hsplit
          obtain ⟨hae, hsplit'⟩ := hsplit
          refine List.mem_cons.mpr
            (Or.inr ((ih _).mpr ⟨l₁', l₂, hsplit', ?_, fun x hx => hall x (by simp [hx])⟩))
          simp [hnot]
          intro hEq
          have := hall a (by simp)
          exact absurd (hae ▸ hEq.symm) (by simpa [hae] using this)

/-- C3: `deduplicate_expenses` keeps exactly the records whose key — the
quadruple `(payee_name, amount, date, expense_type)` for itemized records
and `(purpose, amount, date, 'Category')` for category records — does not
occur earlier in the list (first occurrence wins); since the key excludes
`source_report`, two records differing only in `source_report` collapse to
one. -/
theorem C3_deduplicate_expenses :
    (∀ (l : List ExpenseRecord) (r : ExpenseRecord),
      r ∈ deduplicate_expenses l ↔
        ∃ l₁ l₂, l = l₁ ++ r :: l₂ ∧ ∀ x ∈ l₁, expenseKey x ≠ expenseKey r) ∧
    (∀ (r : ExpenseRecord) (s : String) (l : List ExpenseRecord),
      deduplicate_expenses (r :: { r with source_report := s } :: l) =
        deduplicate_expenses (r :: l)) := by
  constructor
  · intro l r
    rw [deduplicate_expenses, mem_dedupExpensesAux]
    simp
  · intro r s l
    have hkey : expenseKey { r with source_report := s } = expenseKey r := by
      simp [expenseKey]
    simp [deduplicate_expenses, dedupExpensesAux, hkey]

/-- C6: the expense page classifier flags `detailed` exactly for pages whose
uppercased text contains `ITEMIZED EXPENDITURES` with `ALL OVER $100` or
contains `ITEMIZED EXPENDITURES OVER $100`; flags `contributions` exactly
when `CONTRIBUTIONS MADE` and `CANDIDATE OR COMMITTEE` occur and `detailed`
did not match; and flags `category` exactly when
`EXPENDITURES OF $100 OR LESS BY CATEGORY` occurs, or both
`EXPENDITURES AND CONTRIBUTIONS MADE` and `CATEGORY OF EXPENDITURE` occur. -/
theorem C6_expense_page_classifier (text : String) :
    ("detailed" ∈ (is_expense_page text).2 ↔
      ((pyIn "ITEMIZED EXPENDITURES".toList (pyUpper text.toList) &&
        pyIn "ALL OVER $100".toList (pyUpper text.toList)) ||
        pyIn "ITEMIZED EXPENDITURES OVER $100".toList (pyUpper text.toList)) = true) ∧
    ("contributions" ∈ (is_expense_page text).2 ↔
      ((pyIn "CONTRIBUTIONS MADE".toList (pyUpper text.toList) &&
        pyIn "CANDIDATE OR COMMITTEE".toList (pyUpper text.toList)) = true ∧
       ¬ ((pyIn "ITEMIZED EXPENDITURES".toList (pyUpper text.toList) &&
        pyIn "ALL OVER $100".toList (pyUpper text.toList)) ||
        pyIn "ITEMIZED EXPENDITURES OVER $100".toList (pyUpper text.toList)) = true)) ∧
    ("category" ∈ (is_expense_page text).2 ↔
      (pyIn "EXPENDITURES OF $100 OR LESS BY CATEGORY".toList (pyUpper text.toList) = true ∨
       (pyIn "EXPENDITURES AND CONTRIBUTIONS MADE".toList (pyUpper text.toList) &&
        pyIn "CATEGORY OF EXPENDITURE".toList (pyUpper text.toList)) = true)) := by
  have H : ∀ (d1 d2 d3 c1 c2 g1 g2 g3 : Bool),
      (let pt0 : List String := []
       let pt1 := if (d1 && d2) || d3 then pt0 ++ ["detailed"] else pt0
       let pt2 := if c1 && c2 then
           (if pt1.contains "detailed" then pt1 else pt1 ++ ["contributions"]) else pt1
       let pt3 := if g1 then pt2 ++ ["category"] else pt2
       let pt4 := if g2 && g3 then
           (if pt3.contains "category" then pt3 else pt3 ++ ["category"]) else pt3
       let res := if pt4 ≠ [] then (true, pt4) else (false, [])
       ("detailed" ∈ res.2 ↔ ((d1 && d2) || d3) = true) ∧
       ("contributions" ∈ res.2 ↔ ((c1 && c2) = true ∧ ¬ ((d1 && d2) || d3) = true)) ∧
       ("category" ∈ res.2 ↔ (g1 = true ∨ (g2 && g3) = true))) := by decide
  exact H (pyIn "ITEMIZED EXPENDITURES".toList (pyUpper text.toList))
    (pyIn "ALL OVER $100".toList (pyUpper text.toList))
    (pyIn "ITEMIZED EXPENDITURES OVER $100".toList (pyUpper text.toList))
    (pyIn "CONTRIBUTIONS MADE".toList (pyUpper text.toList))
    (pyIn "CANDIDATE OR COMMITTEE".toList (pyUpper text.toList))
    (pyIn "EXPENDITURES OF $100 OR LESS BY CATEGORY".toList (pyUpper text.toList))
    (pyIn "EXPENDITURES AND CONTRIBUTIONS MADE".toList (pyUpper text.toList))
    (pyIn "CATEGORY OF EXPENDITURE".toList (pyUpper text.toList))

theorem is_valid_amount_float_iff (s : String) :
    is_valid_amount s = true ↔ ∃ q : ℚ, pyFloat? s = some q ∧ 1 / 2 ≤ q := by
  unfold is_valid_amount pyFloat?
  by_cases hs : s = ""
  · subst hs
    have h0 : pyFloatParse? "" = none := rfl
    simp [h0]
  · simp only [hs, if_false]
    cases h : pyFloatParse? s with
    | none => simp
    | some p =>
      obtain ⟨neg, m, e⟩ := p
      cases neg with
      | false =>
        simp only [Bool.not_false, Bool.true_and, Option.map_some', Option.some.injEq,
          exists_eq_left']
        rw [if_neg (by simp : ¬(false = true))]
        rw [one_mul, le_div_iff₀ (by positivity : (0:ℚ) < 10 ^ e), decide_eq_true_iff]
        constructor <;> intro hh
        · have h2 : ((10:ℚ)) ^ e ≤ 2 * (m:ℚ) := by exact_mod_cast hh
          linarith
        · have h2 : ((10:ℚ)) ^ e ≤ 2 * (m:ℚ) := by linarith
          exact_mod_cast h2
      | true =>
        simp only [Bool.not_true, Bool.false_and, Option.map_some', Option.some.injEq,
          exists_eq_left']
        refine ⟨fun hh => absurd hh (by simp), fun hle => ?_⟩
        exfalso
        rw [if_pos trivial] at hle
        have hnn : (0:ℚ) ≤ (m:ℚ) / 10 ^ e := by positivity
        have hx : (-1 : ℚ) * m / 10 ^ e = -((m:ℚ) / 10 ^ e) := by ring
        rw [hx] at hle
        linarith

/-- C7: `is_valid_amount` returns true exactly when the string parses as a
float at least 0.50: `0.50` itself is accepted, and values strictly below
0.50 — including negative values — as well as unparseable strings are
rejected. -/
theorem C7_is_valid_amount_floor :
    (∀ s : String, is_valid_amount s = true ↔ ∃ q : ℚ, pyFloat? s = some q ∧ 1 / 2 ≤ q) ∧
    is_valid_amount "0.50" = true ∧
    is_valid_amount "0.49" = false ∧
    is_valid_amount "-3" = false ∧
    is_valid_amount "abc" = false ∧
    is_valid_amount "" = false :=
  ⟨is_valid_amount_float_iff, by decide, by decide, by decide, by decide, by decide⟩

theorem pyIsSpace_not_digit {c : Char} (h : pyIsSpace c = true) : c.isDigit = false := by
  unfold pyIsSpace at h
  simp only [Bool.or_eq_true, decide_eq_true_iff] at h
  rcases h with ((((h | h) | h) | h) | h) | h <;> subst h <;> decide

theorem matchDonorNumAt_not_digit {c : Char} (cs : List Char) (h : c.isDigit = false) :
    matchDonorNumAt (c :: cs) = none := by
  simp [matchDonorNumAt, List.takeWhile, h]

theorem searchNum_skip {c : Char} (cs : List Char) (h : c.isDigit = false) :
    searchPlain matchDonorNumAt (c :: cs) = searchPlain matchDonorNumAt cs := by
  simp [searchPlain, matchDonorNumAt_not_digit cs h]

theorem searchNum_dropWhile_ws (l : List Char) :
    searchPlain matchDonorNumAt (l.dropWhile pyIsSpace) = searchPlain matchDonorNumAt l := by
  induction l with
  | nil => rfl
  | cons c cs ih =>
    by_cases hw : pyIsSpace c
    · rw [List.dropWhile_cons_of_pos hw, ih, searchNum_skip cs (pyIsSpace_not_digit hw)]
    · rw [List.dropWhile_cons_of_neg hw]

theorem searchNum_head_some {l : List Char} {v : List Char}
    (h : matchDonorNumAt l = some v) : searchPlain matchDonorNumAt l = some v := by
  cases l with
  | nil => exact absurd h (by simp [matchDonorNumAt])
  | cons c cs => simp [searchPlain, h]

theorem searchDonor_eq (l : List Char) :
    searchPlain matchDonorAt l = searchPlain matchDonorNumAt l := by
  induction l with
  | nil => rfl
  | cons c cs ih =>
    by_cases hc : c = '$'
    · subst hc
      have hd : matchDonorAt ('$' :: cs) = matchDonorNumAt (cs.dropWhile pyIsSpace) := by
        simp [matchDonorAt]
      rw [show searchPlain matchDonorAt ('$' :: cs) =
            (match matchDonorAt ('$' :: cs) with
             | some cap => some cap
             | none => searchPlain matchDonorAt cs) from rfl, hd]
      rw [searchNum_skip cs (by decide)]
      cases h : matchDonorNumAt (cs.dropWhile pyIsSpace) with
      | some v => rw [← searchNum_dropWhile_ws cs, searchNum_head_some h]
      | none => exact ih
    · have hd : matchDonorAt (c :: cs) = matchDonorNumAt ((c :: cs).dropWhile pyIsSpace) := by
        simp [matchDonorAt, hc]
      by_cases hw : pyIsSpace c
      · rw [show searchPlain matchDonorAt (c :: cs) =
              (match matchDonorAt (c :: cs) with
               | some cap => some cap
               | none => searchPlain matchDonorAt cs) from rfl, hd,
            List.dropWhile_cons_of_pos hw]
        rw [searchNum_skip cs (pyIsSpace_not_digit hw)]
        cases h : matchDonorNumAt (cs.dropWhile pyIsSpace) with
        | some v => rw [← searchNum_dropWhile_ws cs, searchNum_head_some h]
        | none => exact ih
      · rw [show searchPlain matchDonorAt (c :: cs) =
              (match matchDonorAt (c :: cs) with
               | some cap => some cap
               | none => searchPlain matchDonorAt cs) from rfl, hd,
            List.dropWhile_cons_of_neg hw]
        rw [show searchPlain matchDonorNumAt (c :: cs) =
              (match matchDonorNumAt (c :: cs) with
               | some cap => some cap
               | none => searchPlain matchDonorNumAt cs) from rfl]
        cases h : matchDonorNumAt (c :: cs) with
        | some v => rfl
        | none => exact ih

/-- C8: the metadata resolver is total over its input: an unreadable
document yields the `None` sentinel, and a readable text always yields a
metadata record in which each of committee name, period start/end and filing
date is null whenever its pattern is absent from the text — a missing field
alone never causes failure, and no exception escapes this boundary (the
embedding is a total function). -/
theorem C8_metadata_resolver_total :
    (∀ filename : String, extract_report_metadata filename none = none) ∧
    (∀ (filename text : String), ∃ md : Metadata,
      extract_report_metadata filename (some text) = some md ∧
      md.filename = filename ∧
      (searchCommittee text.toList = none → md.committee_name = none) ∧
      (searchPeriod text.toList = none → md.period_start = none ∧ md.period_end = none) ∧
      (searchDateOfReport text.toList = none → md.date_filed = none)) ∧
    extract_report_metadata "r.pdf" (some "no patterns here") =
      some { filename := "r.pdf", committee_name := none, period_start := none,
             period_end := none, date_filed := none, is_amendment := false } := by
  refine ⟨fun filename => rfl, fun filename text => ?_, by decide⟩
  refine ⟨_, rfl, rfl, fun hc => ?_, fun hp => ?_, fun hd => ?_⟩
  · exact hc
  · show (searchPeriod text.toList).map Prod.fst = none ∧
      (searchPeriod text.toList).map Prod.snd = none
    rw [hp]
    exact ⟨rfl, rfl⟩
  · exact hd

theorem validPair_eq_some {α : Type} {meta : α → Option Metadata} {f : α} {p : α × Metadata} :
    validPair meta f = some p ↔
      meta f = some p.2 ∧ p.1 = f ∧ pyTruthy p.2.committee_name = true ∧
        pyTruthy p.2.period_end = true := by
  cases hm : meta f with
  | none => simp [validPair, hm]
  | some m =>
    simp only [validPair, hm]
    by_cases ht : (pyTruthy m.committee_name && pyTruthy m.period_end) = true
    · rw [if_pos ht]
      simp only [Bool.and_eq_true] at ht
      constructor
      · intro h
        injection h with h
        subst h
        exact ⟨rfl, rfl, ht.1, ht.2⟩
      · rintro ⟨h2, h1, _, _⟩
        injection h2 with h2
        cases p
        simp_all
    · rw [if_neg ht]
      simp only [Bool.and_eq_true] at ht
      constructor
      · intro h; cases h
      · rintro ⟨h2, h1, hc, hp⟩
        injection h2 with h2
        subst h2
        exact absurd ⟨hc, hp⟩ ht

theorem mem_validReports {α : Type} {meta : α → Option Metadata} {files : List α}
    {p : α × Metadata} :
    p ∈ validReports meta files ↔
      p.1 ∈ files ∧ meta p.1 = some p.2 ∧ pyTruthy p.2.committee_name = true ∧
        pyTruthy p.2.period_end = true := by
  unfold validReports
  rw [List.mem_filterMap]
  constructor
  · rintro ⟨a, ha, hv⟩
    obtain ⟨hm, hf, hc, hp⟩ := validPair_eq_some.mp hv
    subst hf
    exact ⟨ha, hm, hc, hp⟩
  · rintro ⟨hf, hm, hc, hp⟩
    exact ⟨p.1, hf, validPair_eq_some.mpr ⟨hm, rfl, hc, hp⟩⟩

theorem mem_keysFold {α : Type} :
    ∀ (l : List (α × Metadata)) (acc : List (Option String × Option String))
      (x : Option String × Option String),
      x ∈ l.foldl (fun acc p => if metaKey p.2 ∈ acc then acc else acc ++ [metaKey p.2]) acc ↔
        x ∈ acc ∨ ∃ p ∈ l, metaKey p.2 = x := by
  intro l
  induction l with
  | nil => intro acc x; simp
  | cons q l ih =>
    intro acc x
    rw [List.foldl_cons, ih]
    by_cases hq : metaKey q.2 ∈ acc
    · rw [if_pos hq]
      constructor
      · rintro (h | h)
        · exact Or.inl h
        · exact Or.inr (by obtain ⟨p, hp, he⟩ := h; exact ⟨p, by simp [hp], he⟩)
      · rintro (h | ⟨p, hp, he⟩)
        · exact Or.inl h
        · rcases List.mem_cons.mp hp with hp | hp
          · subst hp; exact Or.inl (he ▸ hq)
          · exact Or.inr ⟨p, hp, he⟩
    · rw [if_neg hq]
      constructor
      · rintro (h | h)
        · rcases List.mem_append.mp h with h | h
          · exact Or.inl h
          · simp at h
            exact Or.inr ⟨q, by simp, h.symm⟩
        · exact Or.inr (by obtain ⟨p, hp, he⟩ := h; exact ⟨p, by simp [hp], he⟩)
      · rintro (h | ⟨p, hp, he⟩)
        · exact Or.inl (List.mem_append.mpr (Or.inl h))
        · rcases List.mem_cons.mp hp with hp | hp
          · subst hp
            exact Or.inl (List.mem_append.mpr (Or.inr (by simp [he])))
          · exact Or.inr ⟨p, hp, he⟩

theorem mem_keysInOrder {α : Type} {l : List (α × Metadata)}
    {x : Option String × Option String} :
    x ∈ keysInOrder l ↔ ∃ p ∈ l, metaKey p.2 = x := by
  unfold keysInOrder
  rw [mem_keysFold]
  simp

theorem nodup_keysFold {α : Type} :
    ∀ (l : List (α × Metadata)) (acc : List (Option String × Option String)),
      acc.Nodup →
      (l.foldl (fun acc p => if metaKey p.2 ∈ acc then acc
        else acc ++ [metaKey p.2]) acc).Nodup := by
  intro l
  induction l with
  | nil => intro acc h; exact h
  | cons q l ih =>
    intro acc h
    rw [List.foldl_cons]
    by_cases hq : metaKey q.2 ∈ acc
    · rw [if_pos hq]; exact ih acc h
    · rw [if_neg hq]
      refine ih _ (List.Nodup.append h (List.nodup_singleton _) ?_)
      intro a ha hb
      simp at hb
      subst hb
      exact hq ha

theorem nodup_keysInOrder {α : Type} (l : List (α × Metadata)) : (keysInOrder l).Nodup :=
  nodup_keysFold l [] List.nodup_nil

theorem pickFirstMax_mem {α : Type} :
    ∀ (xs : List (α × Metadata)) (best : α × Metadata),
      pickFirstMax best xs ∈ best :: xs := by
  intro xs
  induction xs with
  | nil => intro best; simp [pickFirstMax]
  | cons x xs ih =>
    intro best
    rw [pickFirstMax]
    split_ifs
    · rcases List.mem_cons.mp (ih x) with h | h
      · rw [h]; simp
      · simp [List.mem_cons_of_mem, h]
    · rcases List.mem_cons.mp (ih best) with h | h
      · rw [h]; simp
      · simp [List.mem_cons_of_mem, h]

theorem pickFirstMax_max {α : Type} :
    ∀ (xs : List (α × Metadata)) (best q : α × Metadata), q ∈ best :: xs →
      dateVal q.2.date_filed ≤ dateVal (pickFirstMax best xs).2.date_filed := by
  intro xs
  induction xs with
  | nil =>
    intro best q hq
    simp at hq
    subst hq
    simp [pickFirstMax]
  | cons x xs ih =>
    intro best q hq
    rw [pickFirstMax]
    split_ifs with hlt
    · rcases List.mem_cons.mp hq with hq | hq
      · subst hq
        exact le_trans (le_of_lt hlt) (ih x x (by simp))
      · exact ih x q hq
    · rcases List.mem_cons.mp hq with hq | hq
      · exact ih best q (by rw [hq]; simp)
      · rcases List.mem_cons.mp hq with hq | hq
        · refine le_trans ?_ (ih best best (by simp))
          rw [hq]
          exact not_lt.mp hlt
        · exact ih best q (List.mem_cons_of_mem _ hq)

theorem mem_groupFor {α : Type} {l : List (α × Metadata)} {k : Option String × Option String}
    {p : α × Metadata} :
    p ∈ groupFor l k ↔ p ∈ l ∧ metaKey p.2 = k := by
  unfold groupFor
  rw [List.mem_filter]
  simp

theorem latestPick_of_groupEq {α : Type} {valids : List (α × Metadata)}
    {k : Option String × Option String} {x : α × Metadata} {xs : List (α × Metadata)}
    (h : groupFor valids k = x :: xs) :
    latestPick valids k = some (pickFirstMax x xs).1 := by
  unfold latestPick
  rw [h]

theorem mem_filter_latest_sound {α : Type} {meta : α → Option Metadata} {files : List α}
    {g : α} (h : g ∈ filter_latest_reports meta files) :
    ∃ p ∈ validReports meta files, p.1 = g := by
  unfold filter_latest_reports at h
  obtain ⟨k, hk, hpick⟩ := List.mem_filterMap.mp h
  unfold latestPick at hpick
  cases hgr : groupFor (validReports meta files) k with
  | nil => rw [hgr] at hpick; cases hpick
  | cons x xs =>
    rw [hgr] at hpick
    injection hpick with hpick
    have hmem : pickFirstMax x xs ∈ groupFor (validReports meta files) k := by
      rw [hgr]; exact pickFirstMax_mem xs x
    exact ⟨pickFirstMax x xs, (mem_groupFor.mp hmem).1, hpick⟩

theorem countP_filterMap_unique {K β : Type} [DecidableEq K] (pred : β → Bool) (k : K) :
    ∀ (ks : List K) (g : K → Option β),
      ks.Nodup →
      (∀ k' ∈ ks, ∃ f, g k' = some f ∧ (pred f = true ↔ k' = k)) →
      k ∈ ks →
      (ks.filterMap g).countP pred = 1 := by
  intro ks
  induction ks with
  | nil => intro g _ _ hk; cases hk
  | cons k' ks' ih =>
    intro g hnd hall hk
    obtain ⟨f, hgf, hiff⟩ := hall k' (by simp)
    rw [List.filterMap_cons, hgf, List.countP_cons]
    by_cases hkk : k' = k
    · subst hkk
      have hzero : (ks'.filterMap g).countP pred = 0 := by
        rw [List.countP_eq_zero]
        intro b hb
        obtain ⟨k'', hk'', hg⟩ := List.mem_filterMap.mp hb
        obtain ⟨f'', hgf'', hiff''⟩ := hall k'' (by simp [hk''])
        rw [hg] at hgf''
        injection hgf'' with hbf
        subst hbf
        intro hpred
        have hkk'' : k'' = k' := hiff''.mp hpred
        subst hkk''
        exact (List.nodup_cons.mp hnd).1 hk''
      rw [hzero, if_pos (hiff.mpr rfl)]
    · have hpf : pred f = false := by
        cases hp : pred f
        · rfl
        · exact absurd (hiff.mp hp) hkk
      rw [if_neg (by simp [hpf])]
      have hk' : k ∈ ks' := by
        rcases List.mem_cons.mp hk with h | h
        · exact absurd h.symm hkk
        · exact h
      rw [ih g (List.nodup_cons.mp hnd).2 (fun x hx => hall x (by simp [hx])) hk']

theorem dateValE_some {d : Option String} {v : Nat} (h : dateValE d = some v) :
    dateVal d = v := by
  unfold dateValE at h
  by_cases ht : pyTruthy d = true
  · rw [if_pos ht] at h
    cases d with
    | none => exact absurd ht (by decide)
    | some s =>
      cases hp : parseMDYStrict s with
      | none =>
        rw [show (some s).getD "" = s from rfl, hp] at h
        cases h
      | some t =>
        rw [show (some s).getD "" = s from rfl, hp, Option.map_some'] at h
        injection h with h
        obtain ⟨m, dd, y⟩ := t
        rw [show dateVal (some s) =
          (match parseMDYStrict s with
           | some (m, d, y) => dateOrd m d y
           | none => dateOrd 1 1 1) from rfl, hp]
        exact h
  · rw [if_neg ht] at h
    injection h with h
    cases d with
    | none => rw [← h]; rfl
    | some s =>
      have hse : s = "" := by
        by_contra hne
        exact ht (by simp [pyTruthy, hne])
      subst hse
      rw [← h]
      decide

theorem latestPickE_some {α : Type} {valids : List (α × Metadata)}
    {k : Option String × Option String} {a : α}
    (h : latestPickE valids k = some a) : latestPick valids k = some a := by
  unfold latestPickE at h
  cases hm : mapME (fun p => dateValE p.2.date_filed) (groupFor valids k) with
  | none => rw [hm] at h; cases h
  | some vs =>
    rw [hm] at h
    cases hg : groupFor valids k with
    | nil => rw [hg] at h; cases h
    | cons x xs =>
      rw [hg] at h
      unfold latestPick
      rw [hg]
      exact h

theorem mapME_isSome_of_all {α β : Type} (f : α → Option β) :
    ∀ (l : List α), (∀ x ∈ l, (f x).isSome = true) → (mapME f l).isSome = true := by
  intro l
  induction l with
  | nil => intro _; rfl
  | cons x xs ih =>
    intro hall
    have hx := hall x (List.mem_cons_self x xs)
    cases hfx : f x with
    | none => rw [hfx] at hx; cases hx
    | some y =>
      have hxs := ih (fun z hz => hall z (List.mem_cons_of_mem x hz))
      cases hms : mapME f xs with
      | none => rw [hms] at hxs; cases hxs
      | some ys =>
        unfold mapME
        rw [hfx, hms]
        rfl

theorem mapME_some_mem {α β : Type} {f : α → Option β} :
    ∀ {l : List α} {out : List β}, mapME f l = some out →
      ∀ x ∈ l, ∃ y, f x = some y := by
  intro l
  induction l with
  | nil => intro out _ x hx; cases hx
  | cons z zs ih =>
    intro out h x hx
    unfold mapME at h
    cases hfz : f z with
    | none => rw [hfz] at h; cases h
    | some y =>
      rw [hfz] at h
      cases hms : mapME f zs with
      | none => rw [hms] at h; cases h
      | some ys =>
        rcases List.mem_cons.mp hx with hx | hx
        · subst hx; exact ⟨y, hfz⟩
        · exact ih hms x hx

theorem mapME_eq_filterMap {α β : Type} {f g : α → Option β}
    (hfg : ∀ (x : α) (y : β), f x = some y → g x = some y) :
    ∀ {l : List α} {out : List β}, mapME f l = some out → out = l.filterMap g := by
  intro l
  induction l with
  | nil => intro out h; injection h with h; rw [← h]; rfl
  | cons z zs ih =>
    intro out h
    unfold mapME at h
    cases hfz : f z with
    | none => rw [hfz] at h; cases h
    | some y =>
      rw [hfz] at h
      cases hms : mapME f zs with
      | none => rw [hms] at h; cases h
      | some ys =>
        rw [hms] at h
        injection h with h
        rw [← h, ih hms, List.filterMap_cons, hfg z y hfz]

theorem filter_latest_reportsE_eq {α : Type} {meta : α → Option Metadata}
    {files : List α} {out : List α}
    (h : filter_latest_reportsE meta files = some out) :
    out = filter_latest_reports meta files := by
  unfold filter_latest_reportsE at h
  unfold filter_latest_reports
  exact mapME_eq_filterMap (fun k a ha => latestPickE_some ha) h

theorem dateValE_isSome_iff {d : Option String} :
    (dateValE d).isSome = true ↔
      (pyTruthy d = true → parseMDYStrict (d.getD "") ≠ none) := by
  unfold dateValE
  by_cases ht : pyTruthy d = true
  · rw [if_pos ht]
    constructor
    · intro h _ hpn
      rw [hpn] at h
      cases h
    · intro h
      cases hp : parseMDYStrict (d.getD "") with
      | none => exact absurd hp (h ht)
      | some t => rfl
  · rw [if_neg ht]
    constructor
    · intro _ hT; exact absurd hT ht
    · intro _; rfl

theorem filter_latest_reportsE_some_iff {α : Type} (meta : α → Option Metadata)
    (files : List α) :
    (∃ out, filter_latest_reportsE meta files = some out) ↔
      ∀ p ∈ validReports meta files, pyTruthy p.2.date_filed = true →
        parseMDYStrict (p.2.date_filed.getD "") ≠ none := by
  constructor
  · rintro ⟨out, hout⟩ p hp hT
    unfold filter_latest_reportsE at hout
    have hkmem : metaKey p.2 ∈ keysInOrder (validReports meta files) :=
      mem_keysInOrder.mpr ⟨p, hp, rfl⟩
    obtain ⟨a, ha⟩ := mapME_some_mem hout (metaKey p.2) hkmem
    unfold latestPickE at ha
    cases hm : mapME (fun q => dateValE q.2.date_filed)
        (groupFor (validReports meta files) (metaKey p.2)) with
    | none => rw [hm] at ha; cases ha
    | some vs =>
      have hpg : p ∈ groupFor (validReports meta files) (metaKey p.2) :=
        mem_groupFor.mpr ⟨hp, rfl⟩
      obtain ⟨v, hv⟩ := mapME_some_mem hm p hpg
      exact (dateValE_isSome_iff.mp (by rw [hv]; rfl)) hT
  · intro hall
    have hS : (mapME (latestPickE (validReports meta files))
        (keysInOrder (validReports meta files))).isSome = true := by
      apply mapME_isSome_of_all
      intro k hk
      obtain ⟨p, hp, hkey⟩ := mem_keysInOrder.mp hk
      have hpg : p ∈ groupFor (validReports meta files) k := mem_groupFor.mpr ⟨hp, hkey⟩
      have hmS : (mapME (fun q => dateValE q.2.date_filed)
          (groupFor (validReports meta files) k)).isSome = true := by
        apply mapME_isSome_of_all
        intro q hq
        have hqv : q ∈ validReports meta files := (mem_groupFor.mp hq).1
        exact dateValE_isSome_iff.mpr (hall q hqv)
      unfold latestPickE
      cases hm : mapME (fun q => dateValE q.2.date_filed)
          (groupFor (validReports meta files) k) with
      | none => rw [hm] at hmS; cases hmS
      | some vs =>
        cases hg : groupFor (validReports meta files) k with
        | nil => rw [hg] at hpg; cases hpg
        | cons x xs => rfl
    cases hS2 : filter_latest_reportsE meta files with
    | none =>
      unfold filter_latest_reportsE at hS2
      rw [hS2] at hS
      cases hS
    | some out => exact ⟨out, rfl⟩

/-- C2: whenever `filter_latest_reports` returns — which happens exactly
when every candidate surviving the validity guard has a filing date that is
falsy or parses as a real `%m/%d/%Y` date (second conjunct; otherwise the
unguarded `datetime.strptime` in the sort key raises `ValueError` and
nothing is retained) — it keeps exactly one file per
`(committee_name, period_end)` key: a candidate of that key appears in the
result, its sort key is maximal among the key's candidates (a missing
filing date sorts as `datetime.min`, the oldest value), and the result
holds exactly one file of that key.  On the concrete example — two files
for the same committee and period end filed 1/1/2024 and 3/1/2024 — only
the 3/1/2024 file is returned, in either input order. -/
theorem C2_latest_report_per_key :
    (∀ {α : Type} (meta : α → Option Metadata) (files out : List α)
      (k : Option String × Option String),
      filter_latest_reportsE meta files = some out →
      (∃ p ∈ validReports meta files, metaKey p.2 = k) →
      ∃ p : α × Metadata,
        p ∈ validReports meta files ∧ metaKey p.2 = k ∧
        p.1 ∈ out ∧
        (∀ q ∈ validReports meta files, metaKey q.2 = k →
          ∀ vq vp : Nat, dateValE q.2.date_filed = some vq →
            dateValE p.2.date_filed = some vp → vq ≤ vp) ∧
        out.countP (fun g => decide ((meta g).map metaKey = some k)) = 1) ∧
    (∀ {α : Type} (meta : α → Option Metadata) (files : List α),
      (∃ out, filter_latest_reportsE meta files = some out) ↔
      ∀ p ∈ validReports meta files, pyTruthy p.2.date_filed = true →
        parseMDYStrict (p.2.date_filed.getD "") ≠ none) ∧
    filter_latest_reportsE exOracleC2 ["a.pdf", "b.pdf"] = some ["b.pdf"] ∧
    filter_latest_reportsE exOracleC2 ["b.pdf", "a.pdf"] = some ["b.pdf"] := by
  refine ⟨?_, ?_, by decide, by decide⟩
  · intro α meta files out k hout hk
    have hfe : out = filter_latest_reports meta files := filter_latest_reportsE_eq hout
    subst hfe
    have hkmem : k ∈ keysInOrder (validReports meta files) := mem_keysInOrder.mpr hk
    obtain ⟨p0, hp0, hkey0⟩ := hk
    have hp0g : p0 ∈ groupFor (validReports meta files) k := mem_groupFor.mpr ⟨hp0, hkey0⟩
    cases hgr : groupFor (validReports meta files) k with
    | nil => rw [hgr] at hp0g; cases hp0g
    | cons x xs =>
      refine ⟨pickFirstMax x xs, ?_, ?_, ?_, ?_, ?_⟩
      · have hmem : pickFirstMax x xs ∈ groupFor (validReports meta files) k := by
          rw [hgr]; exact pickFirstMax_mem xs x
        exact (mem_groupFor.mp hmem).1
      · have hmem : pickFirstMax x xs ∈ groupFor (validReports meta files) k := by
          rw [hgr]; exact pickFirstMax_mem xs x
        exact (mem_groupFor.mp hmem).2
      · exact List.mem_filterMap.mpr ⟨k, hkmem, latestPick_of_groupEq hgr⟩
      · intro q hq hqk vq vp hvq hvp
        have hqg : q ∈ groupFor (validReports meta files) k := mem_groupFor.mpr ⟨hq, hqk⟩
        rw [hgr] at hqg
        have hle := pickFirstMax_max xs x q hqg
        rw [dateValE_some hvq, dateValE_some hvp] at hle
        exact hle
      · show ((keysInOrder (validReports meta files)).filterMap
          (latestPick (validReports meta files))).countP _ = 1
        refine countP_filterMap_unique _ k (keysInOrder (validReports meta files))
          (latestPick (validReports meta files)) (nodup_keysInOrder _) ?_ hkmem
        intro k' hk'
        obtain ⟨q, hq, hqk⟩ := mem_keysInOrder.mp hk'
        have hqg : q ∈ groupFor (validReports meta files) k' := mem_groupFor.mpr ⟨hq, hqk⟩
        cases hgr' : groupFor (validReports meta files) k' with
        | nil => rw [hgr'] at hqg; cases hqg
        | cons y ys =>
          refine ⟨(pickFirstMax y ys).1, latestPick_of_groupEq hgr', ?_⟩
          have hmem : pickFirstMax y ys ∈ groupFor (validReports meta files) k' := by
            rw [hgr']; exact pickFirstMax_mem ys y
          obtain ⟨hval, hkeyp⟩ := mem_groupFor.mp hmem
          have hm : meta (pickFirstMax y ys).1 = some (pickFirstMax y ys).2 :=
            (mem_validReports.mp hval).2.1
          rw [hm]
          simp only [Option.map_some', Option.some.injEq, decide_eq_true_iff]
          rw [hkeyp]
  · intro α meta files
    exact filter_latest_reportsE_some_iff meta files

/-- C2 counterexample: a PDF page carrying the regex-capturable but
calendar-invalid filing date 4/31/2024 (April has 30 days) extracts to
metadata with truthy committee name and period end, so the file survives
the validity guard and its key has a candidate — yet the unguarded
`datetime.strptime` in the sort key raises `ValueError`, the exception
escapes `filter_latest_reports`, and no file at all is retained for the
key, contrary to the claim's for-every-input one-file-per-key assertion. -/
theorem C2_latest_report_per_key_counterexample :
    extract_report_metadata "bad.pdf" (some exBadDateText) = some exMetaBad ∧
    exMetaBad.date_filed = some "4/31/2024" ∧
    parseMDYStrict "4/31/2024" = none ∧
    pyTruthy exMetaBad.committee_name = true ∧
    pyTruthy exMetaBad.period_end = true ∧
    validReports exOracleC2bad ["bad.pdf"] = [("bad.pdf", exMetaBad)] ∧
    filter_latest_reportsE exOracleC2bad ["bad.pdf"] = none := by
  decide

/-- C9: a readable PDF whose extracted metadata lacks a truthy committee
name or period end is silently dropped: it appears neither in the filtered
result of `filter_latest_reports` nor in the reported corrupted/skipped
files.  The concrete instance shows a file with metadata lacking
`period_end` vanishing from both lists. -/
theorem C9_invalid_key_silently_dropped :
    (∀ {α : Type} (meta : α → Option Metadata) (files : List α) (f : α) (m : Metadata),
      f ∈ files → meta f = some m →
      (pyTruthy m.committee_name = false ∨ pyTruthy m.period_end = false) →
      f ∉ filter_latest_reports meta files ∧ f ∉ corruptedFiles meta files) ∧
    filter_latest_reports exOracleC9 ["x.pdf"] = [] ∧
    corruptedFiles exOracleC9 ["x.pdf"] = [] := by
  refine ⟨?_, by decide, by decide⟩
  intro α meta files f m hf hm hfalsy
  constructor
  · intro hout
    obtain ⟨p, hp, hpf⟩ := mem_filter_latest_sound hout
    obtain ⟨_, hmp, hc, hpe⟩ := mem_validReports.mp hp
    rw [hpf, hm] at hmp
    injection hmp with hmp
    rcases hfalsy with h | h
    · rw [hmp] at h
      rw [hc] at h
      cases h
    · rw [hmp] at h
      rw [hpe] at h
      cases h
  · intro hcor
    unfold corruptedFiles at hcor
    have hnone := (List.mem_filter.mp hcor).2
    rw [hm] at hnone
    cases hnone

/-- C4: the composite cell
`NAME:\nJohn Doe\nADDRESS:\n123 Main St\nCITY/STATE:\nSt. Louis, MO 63101`
splits into name `John Doe`, address `123 Main St` and city/state
`St. Louis, MO 63101`; and any composite cell whose line loop recovers no
usable name — the name slot left empty or still equal to a label token —
makes `clean_donor_record` reject the record (return null). -/
theorem C4_composite_cell_split :
    clean_donor_record exCompositeDonor =
      some { exCompositeDonor with
             donor_name := some "John Doe"
             donor_address := some "123 Main St"
             donor_city_state := some "St. Louis, MO 63101" } ∧
    (∀ d : DonorRecord,
      pyTruthy d.donor_name = true →
      pyIn ['\n'] (d.donor_name.getD "").toList = true →
      (∀ n, (cleanLoop (d.donor_name.getD "")).name = some n →
        n = "" ∨ n ∈ nameLabelTokens) →
      clean_donor_record d = none) := by
  refine ⟨by decide, fun d hT hN hbad => ?_⟩
  have hstep : cleanStep d = none := by
    unfold cleanStep
    rw [if_pos (by rw [hT, hN]; rfl)]
    cases hn : (cleanLoop (d.donor_name.getD "")).name with
    | none => rfl
    | some n =>
      have hb := hbad n hn
      simp only [if_pos hb]
  unfold clean_donor_record
  rw [hstep]

/-- C10: `parse_donor_entry` extracts the donor amount with the single
pattern `\$?\s*(\d+(?:,\d{3})*(?:\.\d{2})?)`: the captured number is the
leftmost digit run (the optional dollar/whitespace prefix never changes the
captured value), commas are removed, and neither the `Paid`/`Incurred`
cascade nor the 0.50 floor applies — so the checkbox-glyph cell
`4 Paid 161.80` records amount `4`, while the expense extractor records
`161.80` from the same cell, and the sub-floor `0.01` is kept. -/
theorem C10_donor_amount_extraction :
    parse_donor_entry_amount "4 Paid 161.80" = some "4" ∧
    extract_amount_from_cell "4 Paid 161.80" = some "161.80" ∧
    parse_donor_entry_amount "0.01" = some "0.01" ∧
    is_valid_amount "0.01" = false ∧
    (∀ cell : String, parse_donor_entry_amount cell =
      (searchPlain matchDonorNumAt (pyStrip cell).toList).map
        (fun cap => (⟨stripCommas cap⟩ : String))) := by
  refine ⟨by decide, by decide, by decide, by decide, fun cell => ?_⟩
  unfold parse_donor_entry_amount
  by_cases he : pyStrip cell = ""
  · rw [if_pos he, he]
    rfl
  · rw [if_neg he, searchDonor_eq]


theorem amendingLabel_shape :
    ∀ (ls : List (List Char)) (s : String),
      amendingLabel ls = some s → ∃ t : String, s = "Amending: " ++ t := by
  intro ls
  induction ls with
  | nil => intro s h; cases h
  | cons line rest ih =>
    intro s h
    simp only [amendingLabel] at h
    split at h
    · split at h
      · exact ih s h
      · split at h
        · split at h
          · injection h with h
            exact ⟨_, h.symm⟩
          · exact ih s h
        · exact ih s h
    · exact ih s h

theorem take_two_append {l₁ l₂ : List Char} (h : 2 ≤ l₁.length) :
    (l₁ ++ l₂).take 2 = l₁.take 2 :=
  List.take_append_of_le_length h

theorem cqr_ne_quarter (q : String) :
    "COMMITTEE QUARTERLY REPORT" ≠ "Quarter: " ++ q := by
  intro h
  have h2 := congrArg (fun s : String => s.data.take 2) h
  simp only [String.data_append] at h2
  rw [take_two_append (by decide)] at h2
  exact absurd h2 (by decide)

theorem cqr_ne_amending (r : String) :
    "COMMITTEE QUARTERLY REPORT" ≠ "Amending: " ++ r := by
  intro h
  have h2 := congrArg (fun s : String => s.data.take 2) h
  simp only [String.data_append] at h2
  rw [take_two_append (by decide)] at h2
  exact absurd h2 (by decide)

theorem pattern_name_ne_quarter {np : String × List String}
    (hnp : np ∈ reportPatterns) (q : String) : np.1 ≠ "Quarter: " ++ q := by
  intro h
  have h2 := congrArg (fun s : String => s.data.take 2) h
  simp only [String.data_append] at h2
  rw [take_two_append (by decide)] at h2
  simp only [reportPatterns, List.mem_cons, List.not_mem_nil, or_false] at hnp
  rcases hnp with h' | h' | h' | h' | h' | h' | h' | h' | h' <;>
    (rw [h'] at h2; exact absurd h2 (by decide))

theorem pattern_name_ne_amending {np : String × List String}
    (hnp : np ∈ reportPatterns) (r : String) : np.1 ≠ "Amending: " ++ r := by
  intro h
  have h2 := congrArg (fun s : String => s.data.take 2) h
  simp only [String.data_append] at h2
  rw [take_two_append (by decide)] at h2
  simp only [reportPatterns, List.mem_cons, List.not_mem_nil, or_false] at hnp
  rcases hnp with h' | h' | h' | h' | h' | h' | h' | h' | h' <;>
    (rw [h'] at h2; exact absurd h2 (by decide))


theorem stepQuarter_append (pe : Option String) (rname : String) (acc1 : List String) :
    ∃ t, stepQuarter pe rname acc1 = acc1 ++ t := by
  unfold stepQuarter
  split_ifs
  · cases hp : parseMDYStrict (pe.getD "") with
    | some p =>
      obtain ⟨m, d, y⟩ := p
      exact ⟨_, rfl⟩
    | none => exact ⟨[], (List.append_nil acc1).symm⟩
  · exact ⟨[], (List.append_nil acc1).symm⟩

theorem mem_stepQuarter {pe : Option String} {rname : String} {acc1 : List String}
    {name : String} (h : name ∈ stepQuarter pe rname acc1) :
    name ∈ acc1 ∨ ∃ q, name = "Quarter: " ++ q := by
  unfold stepQuarter at h
  split_ifs at h
  · cases hp : parseMDYStrict (pe.getD "") with
    | some p =>
      obtain ⟨m, d, y⟩ := p
      rw [hp] at h
      rcases List.mem_append.mp h with h | h
      · exact Or.inl h
      · simp at h
        exact Or.inr ⟨_, h⟩
    | none =>
      rw [hp] at h
      exact Or.inl h
  · exact Or.inl h

theorem stepQuarter_fires {pe : Option String} {m d y : Nat} (acc1 : List String)
    (hpe : pyTruthy pe = true) (hp : parseMDYStrict (pe.getD "") = some (m, d, y)) :
    stepQuarter pe "COMMITTEE QUARTERLY REPORT" acc1 =
      acc1 ++ ["Quarter: " ++ quarterLabel m] := by
  unfold stepQuarter
  rw [if_pos (by rw [hpe]; rfl), hp]

theorem stepAmend_append (sect : List Char) (idx : Nat) (rname : String)
    (acc2 : List String) : ∃ t, stepAmend sect idx rname acc2 = acc2 ++ t := by
  unfold stepAmend
  split_ifs
  · cases amendingLabel (splitNl ((sect.drop idx).take 500)) with
    | some lbl => exact ⟨_, rfl⟩
    | none => exact ⟨[], (List.append_nil acc2).symm⟩
  · exact ⟨[], (List.append_nil acc2).symm⟩

theorem mem_stepAmend {sect : List Char} {idx : Nat} {rname : String} {acc2 : List String}
    {name : String} (h : name ∈ stepAmend sect idx rname acc2) :
    name ∈ acc2 ∨ ∃ r, name = "Amending: " ++ r := by
  unfold stepAmend at h
  split_ifs at h
  · cases hl : amendingLabel (splitNl ((sect.drop idx).take 500)) with
    | some lbl =>
      rw [hl] at h
      rcases List.mem_append.mp h with h | h
      · exact Or.inl h
      · simp at h
        obtain ⟨t, ht⟩ := amendingLabel_shape _ _ hl
        exact Or.inr ⟨t, h ▸ ht⟩
    | none =>
      rw [hl] at h
      exact Or.inl h
  · exact Or.inl h

theorem stepReport_append (sect : List Char) (sl : List (List Char)) (pe : Option String)
    (acc : List String) (np : String × List String) :
    ∃ t, stepReport sect sl pe acc np = acc ++ t := by
  unfold stepReport
  cases searchWordsPos (np.2.map String.toList) 0 sect with
  | none => exact ⟨[], (List.append_nil acc).symm⟩
  | some idx =>
    dsimp only
    split_ifs
    · obtain ⟨t1, ht1⟩ := stepQuarter_append pe np.1 (acc ++ [np.1])
      obtain ⟨t2, ht2⟩ := stepAmend_append sect idx np.1 (stepQuarter pe np.1 (acc ++ [np.1]))
      exact ⟨[np.1] ++ t1 ++ t2, by rw [ht2, ht1]; simp⟩
    · exact ⟨[], (List.append_nil acc).symm⟩

theorem mem_stepReport {sect : List Char} {sl : List (List Char)} {pe : Option String}
    {acc : List String} {np : String × List String} {name : String}
    (h : name ∈ stepReport sect sl pe acc np) :
    name ∈ acc ∨
    (name = np.1 ∧ ∃ idx, searchWordsPos (np.2.map String.toList) 0 sect = some idx ∧
      hasCheckAt sect sl idx = true) ∨
    (∃ q, name = "Quarter: " ++ q) ∨ (∃ r, name = "Amending: " ++ r) := by
  unfold stepReport at h
  cases hs : searchWordsPos (np.2.map String.toList) 0 sect with
  | none => rw [hs] at h; exact Or.inl h
  | some idx =>
    rw [hs] at h
    dsimp only at h
    by_cases hck : (hasCheckAt sect sl idx && !acc.contains np.1) = true
    · rw [if_pos hck] at h
      rcases mem_stepAmend h with h | h
      · rcases mem_stepQuarter h with h | h
        · rcases List.mem_append.mp h with h | h
          · exact Or.inl h
          · simp at h
            exact Or.inr (Or.inl ⟨h, idx, rfl,
              (Bool.and_eq_true _ _ ▸ hck).1⟩)
        · exact Or.inr (Or.inr (Or.inl h))
      · exact Or.inr (Or.inr (Or.inr h))
    · rw [if_neg hck] at h
      exact Or.inl h

theorem mem_foldl_stepReport {sect : List Char} {sl : List (List Char)} {pe : Option String} :
    ∀ (ps : List (String × List String)) (acc : List String) (name : String),
      name ∈ ps.foldl (stepReport sect sl pe) acc →
      name ∈ acc ∨
      (∃ np ∈ ps, name = np.1 ∧ ∃ idx,
        searchWordsPos (np.2.map String.toList) 0 sect = some idx ∧
        hasCheckAt sect sl idx = true) ∨
      (∃ q, name = "Quarter: " ++ q) ∨ (∃ r, name = "Amending: " ++ r) := by
  intro ps
  induction ps with
  | nil => intro acc name h; exact Or.inl h
  | cons np ps ih =>
    intro acc name h
    rw [List.foldl_cons] at h
    rcases ih _ name h with h' | h' | h' | h'
    · rcases mem_stepReport h' with h'' | h'' | h'' | h''
      · exact Or.inl h''
      · exact Or.inr (Or.inl ⟨np, by simp, h''.1, h''.2⟩)
      · exact Or.inr (Or.inr (Or.inl h''))
      · exact Or.inr (Or.inr (Or.inr h''))
    · obtain ⟨np', hnp', hrest⟩ := h'
      exact Or.inr (Or.inl ⟨np', by simp [hnp'], hrest⟩)
    · exact Or.inr (Or.inr (Or.inl h'))
    · exact Or.inr (Or.inr (Or.inr h'))

theorem reportPatterns_fst_inj :
    ∀ np₁ ∈ reportPatterns, ∀ np₂ ∈ reportPatterns, np₁.1 = np₂.1 → np₁ = np₂ := by
  decide


theorem mem_stepReport_of_mem {sect : List Char} {sl : List (List Char)} {pe : Option String}
    {acc : List String} {np : String × List String} {name : String} (h : name ∈ acc) :
    name ∈ stepReport sect sl pe acc np := by
  obtain ⟨t, ht⟩ := stepReport_append sect sl pe acc np
  rw [ht]
  exact List.mem_append_left t h

theorem quarter_step_invariant {sect : List Char} {sl : List (List Char)} {pe : Option String}
    {m d y : Nat} (hpe : pyTruthy pe = true)
    (hp : parseMDYStrict (pe.getD "") = some (m, d, y))
    (np : String × List String) (acc : List String)
    (hP : "COMMITTEE QUARTERLY REPORT" ∈ acc → ("Quarter: " ++ quarterLabel m) ∈ acc) :
    "COMMITTEE QUARTERLY REPORT" ∈ stepReport sect sl pe acc np →
      ("Quarter: " ++ quarterLabel m) ∈ stepReport sect sl pe acc np := by
  intro hin
  unfold stepReport at hin ⊢
  cases hs : searchWordsPos (np.2.map String.toList) 0 sect with
  | none =>
    rw [hs] at hin
    exact hP hin
  | some idx =>
    rw [hs] at hin
    dsimp only at hin ⊢
    by_cases hck : (hasCheckAt sect sl idx && !acc.contains np.1) = true
    · rw [if_pos hck] at hin ⊢
      by_cases hnpq : np.1 = "COMMITTEE QUARTERLY REPORT"
      · rw [hnpq, stepQuarter_fires _ hpe hp]
        obtain ⟨t2, ht2⟩ := stepAmend_append sect idx "COMMITTEE QUARTERLY REPORT"
          ((acc ++ ["COMMITTEE QUARTERLY REPORT"]) ++ ["Quarter: " ++ quarterLabel m])
        rw [ht2]
        simp
      · have hQL : ("Quarter: " ++ quarterLabel m) ∈ acc := by
          rcases mem_stepAmend hin with h' | ⟨r, hr⟩
          · rcases mem_stepQuarter h' with h' | ⟨q, hq⟩
            · rcases List.mem_append.mp h' with h' | h'
              · exact hP h'
              · simp at h'
                exact absurd h'.symm hnpq
            · exact absurd hq (cqr_ne_quarter q)
          · exact absurd hr (cqr_ne_amending r)
        obtain ⟨t1, ht1⟩ := stepQuarter_append pe np.1 (acc ++ [np.1])
        obtain ⟨t2, ht2⟩ := stepAmend_append sect idx np.1 (stepQuarter pe np.1 (acc ++ [np.1]))
        rw [ht2, ht1]
        simp [hQL]
    · rw [if_neg hck] at hin ⊢
      exact hP hin

theorem quarter_foldl_invariant {sect : List Char} {sl : List (List Char)} {pe : Option String}
    {m d y : Nat} (hpe : pyTruthy pe = true)
    (hp : parseMDYStrict (pe.getD "") = some (m, d, y)) :
    ∀ (ps : List (String × List String)) (acc : List String),
      ("COMMITTEE QUARTERLY REPORT" ∈ acc → ("Quarter: " ++ quarterLabel m) ∈ acc) →
      "COMMITTEE QUARTERLY REPORT" ∈ ps.foldl (stepReport sect sl pe) acc →
      ("Quarter: " ++ quarterLabel m) ∈ ps.foldl (stepReport sect sl pe) acc := by
  intro ps
  induction ps with
  | nil => intro acc hP hin; exact hP hin
  | cons np ps ih =>
    intro acc hP hin
    rw [List.foldl_cons] at hin ⊢
    exact ih _ (quarter_step_invariant hpe hp np acc hP) hin


/-- C5: a report type from the nine-pattern table is selected only when its
pattern words occur in the TYPE OF REPORT section with a checkbox mark 4 on an
adjacent line; when COMMITTEE QUARTERLY REPORT is selected and the period-end
date parses, a Quarter label with breakpoints Jan 15 / Apr 15 / Jul 15 / Oct 15
(month <= 1 / <= 4 / <= 7 / else) is appended; a concrete quarterly page
produces COMMITTEE QUARTERLY REPORT | Quarter: Jul 15. -/
theorem C5_report_type_checkbox :
    (∀ (text : String) (pe : Option String) (rname : String) (pat : List String),
      (rname, pat) ∈ reportPatterns →
      rname ∈ reportTypesOf text pe →
      ∃ idx, searchWordsPos (pat.map String.toList) 0 (sectionTextOf text) = some idx ∧
        hasCheckAt (sectionTextOf text) (splitNl (sectionTextOf text)) idx = true) ∧
    (∀ (text : String) (pe : Option String) (m d y : Nat),
      "COMMITTEE QUARTERLY REPORT" ∈ reportTypesOf text pe →
      pyTruthy pe = true → parseMDYStrict (pe.getD "") = some (m, d, y) →
      ("Quarter: " ++ (if m ≤ 1 then "Jan 15" else if m ≤ 4 then "Apr 15"
        else if m ≤ 7 then "Jul 15" else "Oct 15")) ∈ reportTypesOf text pe) ∧
    extract_mo_ethics_report_data exQuarterlyPage =
      { date_of_report := none, committee_name := none, period_start := some "4/1/2024",
        period_end := some "6/30/2024",
        report_type := "COMMITTEE QUARTERLY REPORT | Quarter: Jul 15" } := by
  refine ⟨?_, ?_, by decide⟩
  · intro text pe rname pat hmem hin
    unfold reportTypesOf at hin
    rcases mem_foldl_stepReport reportPatterns [] rname hin with h | h | h | h
    · cases h
    · obtain ⟨np, hnp, hname, idx, hidx, hck⟩ := h
      have heq : np = (rname, pat) := reportPatterns_fst_inj np hnp (rname, pat) hmem hname.symm
      rw [heq] at hidx
      exact ⟨idx, hidx, hck⟩
    · obtain ⟨q, hq⟩ := h
      exact absurd hq (pattern_name_ne_quarter hmem q)
    · obtain ⟨r, hr⟩ := h
      exact absurd hr (pattern_name_ne_amending hmem r)
  · intro text pe m d y hin hpe hp
    have hql : ("Quarter: " ++ quarterLabel m) ∈ reportTypesOf text pe := by
      unfold reportTypesOf at hin ⊢
      exact quarter_foldl_invariant hpe hp reportPatterns []
        (fun h => absurd h (List.not_mem_nil _)) hin
    exact hql

end MOEthics
